import Mathlib

/-!
Verification of the TextAnalyzer analysis core.

This file gives a shallow embedding, in Lean 4, of the pure computational
core of the TextAnalyzer repository:

* utils/textValidation.js : validateText, sanitizeText, checkTextSafety,
  normalizeText together with the module constants MAX_TEXT_LENGTH,
  MIN_TEXT_LENGTH, URL_REGEX, HTML_TAG_REGEX, SPECIAL_CHARS_REGEX;
* src/js/app.js (utils/textAnalysis.js) : calculateBasicMetrics,
  countSyllablesInWord, calculateFleschReadingEase,
  calculateFleschKincaidGrade, calculateColemanLiauIndex,
  analyzeWordFrequency.

Strings are modelled as Lean String / List Char; the concrete JavaScript
regular expressions of the source are embedded as explicit scanning
functions over List Char whose semantics follows the ECMAScript matching
rules (leftmost match, greedy quantifiers, global replacement); each such
function carries a comment recording the regex it embeds.  JavaScript
lowercasing is modelled on the Basic Latin range (Char.toLower agrees with
String.prototype.toLowerCase there); the JavaScript number results of the
readability formulas are modelled as exact rationals, which is faithful
for the guarded zero cases the claims are about.
-/

namespace TextAnalyzer

/-! ### Character classes of the source regexes -/

/-- The ECMAScript whitespace class (regex class \s, also the set removed
by String.prototype.trim): tab, LF, VT, FF, CR, space, NBSP, Ogham space,
the U+2000..U+200A range, LS, PS, NNBSP, MMSP, ideographic space, BOM. -/
def isJsSpace (c : Char) : Bool :=
  let n := c.toNat
  n == 9 || n == 10 || n == 11 || n == 12 || n == 13 || n == 32 ||
  n == 0xa0 || n == 0x1680 || (0x2000 ≤ n && n ≤ 0x200a) ||
  n == 0x2028 || n == 0x2029 || n == 0x202f || n == 0x205f ||
  n == 0x3000 || n == 0xfeff

/-- The ECMAScript word-character class (regex class \w): ASCII letters,
digits and underscore. -/
def isWordChar (c : Char) : Bool :=
  (('a' ≤ c && c ≤ 'z') || ('A' ≤ c && c ≤ 'Z') ||
   ('0' ≤ c && c ≤ '9') || c == '_')

/-- Characters matched by SPECIAL_CHARS_REGEX = [^\w\s.,!?-]. -/
def isSpecialChar (c : Char) : Bool :=
  !(isWordChar c || isJsSpace c || c == '.' || c == ',' ||
    c == '!' || c == '?' || c == '-')

/-- The sentence-splitting punctuation class [.!?] of calculateBasicMetrics. -/
def isSentencePunct (c : Char) : Bool :=
  c == '.' || c == '!' || c == '?'

/-- The punctuation class [.,!?] collapsed by normalizeText. -/
def isNormPunct (c : Char) : Bool :=
  c == '.' || c == ',' || c == '!' || c == '?'

/-- ASCII decimal digits. -/
def isDigitChar (c : Char) : Bool :=
  '0' ≤ c && c ≤ '9'

/-- ASCII lowercase letters. -/
def isLowerAlpha (c : Char) : Bool :=
  'a' ≤ c && c ≤ 'z'

/-- ASCII uppercase letters, the characters changed by Basic Latin
lowercasing. -/
def isUpperAlpha (c : Char) : Bool :=
  'A' ≤ c && c ≤ 'Z'

/-- No two adjacent characters are both whitespace. -/
def NoWsPair (a b : Char) : Prop :=
  ¬(isJsSpace a = true ∧ isJsSpace b = true)

/-- The shape of text whose whitespace has been collapsed: every
whitespace character is a plain space and no two are adjacent. -/
def WsNormed (l : List Char) : Prop :=
  (∀ c ∈ l, isJsSpace c = true → c = ' ') ∧ List.Chain' NoWsPair l

/-- No two adjacent characters are both in the [.,!?] class. -/
def NoPunctPair (a b : Char) : Prop :=
  ¬(isNormPunct a = true ∧ isNormPunct b = true)

/-- The shape of text whose punctuation has been collapsed: every
[.,!?] character is a dot and no two are adjacent. -/
def PunctNormed (l : List Char) : Prop :=
  (∀ c ∈ l, isNormPunct c = true → c = '.') ∧ List.Chain' NoPunctPair l

/-- No character is an uppercase ASCII letter. -/
def NoUpper (l : List Char) : Prop :=
  ∀ c ∈ l, isUpperAlpha c = false

/-! ### Generic scanning replacements shared by normalizeText and
sanitizeText -/

/-- Global replacement of the regex \s+ by a single space
(text.replace(/\s+/g, ' ')).  The flag records whether the scanner is
inside a whitespace run whose replacement space has already been
emitted: the first whitespace character of a run becomes one space, the
rest of the run is dropped. -/
def cwAux : Bool → List Char → List Char
  | _, [] => []
  | inRun, c :: rest =>
    if isJsSpace c then
      if inRun then cwAux true rest else ' ' :: cwAux true rest
    else c :: cwAux false rest

/-- text.replace(/\s+/g, ' '): every maximal whitespace run becomes one
space. -/
def collapseWs (l : List Char) : List Char :=
  cwAux false l

/-- Global replacement of the regex [.,!?]+ by a single dot
(text.replace(/[.,!?]+/g, '.')).  The flag records whether the scanner
is inside a punctuation run whose replacement dot has already been
emitted. -/
def cpAux : Bool → List Char → List Char
  | _, [] => []
  | inRun, c :: rest =>
    if isNormPunct c then
      if inRun then cpAux true rest else '.' :: cpAux true rest
    else c :: cpAux false rest

/-- text.replace(/[.,!?]+/g, '.'): every maximal punctuation run becomes
one dot. -/
def collapsePunct (l : List Char) : List Char :=
  cpAux false l

/-- Leading-whitespace removal, the first half of String.prototype.trim. -/
def trimLeft (l : List Char) : List Char :=
  l.dropWhile isJsSpace

/-- Trailing-whitespace removal, the second half of String.prototype.trim:
the maximal whitespace run at the end of the string is removed. -/
def trimRight : List Char → List Char
  | [] => []
  | c :: rest =>
    match trimRight rest with
    | [] => if isJsSpace c then [] else [c]
    | r => c :: r

/-- String.prototype.trim: remove ECMAScript whitespace at both ends. -/
def jsTrim (l : List Char) : List Char :=
  trimRight (trimLeft l)

/-! ### textValidation.js : normalizeText -/

/-- normalizeText (utils/textValidation.js, lines 119-125):
text.toLowerCase().replace(/\s+/g, ' ').replace(/[.,!?]+/g, '.').trim().
Lowercasing is modelled per character with Char.toLower, which agrees with
the JavaScript method on the Basic Latin range. -/
def normalizeTextL (l : List Char) : List Char :=
  jsTrim (collapsePunct (collapseWs (l.map Char.toLower)))

/-- normalizeText on Lean strings. -/
def normalizeText (s : String) : String :=
  String.mk (normalizeTextL s.data)

/-! ### textValidation.js : sanitizeText -/

/-- Global replacement of HTML_TAG_REGEX = <[^>]*> by the empty string.
A match starts at a character < that has a later >; the greedy [^>]*
runs to the first subsequent >, which closes the match.  The flag
records whether the scanner is inside a match being dropped: in that
mode characters are dropped up to and including the closing >. -/
def rtAux : Bool → List Char → List Char
  | _, [] => []
  | true, c :: rest => if c = '>' then rtAux false rest else rtAux true rest
  | false, c :: rest =>
    if c = '<' ∧ rest.contains '>' then rtAux true rest
    else c :: rtAux false rest

/-- text.replace(/<[^>]*>/g, ''): remove every HTML-tag-like substring. -/
def removeTags (l : List Char) : List Char :=
  rtAux false l

/-- Does a match of URL_REGEX = (https?:\/\/[^\s]+) start at the head of
the list?  The literal prefix http:// or https:// must be followed by at
least one non-whitespace character. -/
def urlStart : List Char → Bool
  | 'h' :: 't' :: 't' :: 'p' :: 's' :: ':' :: '/' :: '/' :: c :: _ =>
    !isJsSpace c
  | 'h' :: 't' :: 't' :: 'p' :: ':' :: '/' :: '/' :: c :: _ =>
    !isJsSpace c
  | _ => false

/-- Global replacement of URL_REGEX = (https?:\/\/[^\s]+) by the empty
string.  Every character of a match is non-whitespace and the greedy
[^\s]+ extends to the next whitespace, so a match starting at a
position covers exactly the non-whitespace run from there.  The flag
records whether the scanner is inside a match being dropped: in that
mode non-whitespace characters are dropped and the first whitespace
character ends the match and is kept. -/
def ruAux : Bool → List Char → List Char
  | _, [] => []
  | true, c :: rest =>
    if isJsSpace c then c :: ruAux false rest else ruAux true rest
  | false, c :: rest =>
    if urlStart (c :: rest) then ruAux true rest else c :: ruAux false rest

/-- text.replace(/(https?:\/\/[^\s]+)/g, ''): remove every URL token. -/
def removeUrls (l : List Char) : List Char :=
  ruAux false l

/-- Does a URL match start anywhere in the text?  Characterizes whether
URL_REGEX can match at all. -/
def hasUrl : List Char → Bool
  | [] => false
  | c :: rest => urlStart (c :: rest) || hasUrl rest

/-- sanitizeText (utils/textValidation.js, lines 74-82): empty input maps
to the empty string; otherwise HTML tags are removed, then URLs, then
whitespace runs are collapsed to single spaces, then the ends are trimmed. -/
def sanitizeTextL (l : List Char) : List Char :=
  jsTrim (collapseWs (removeUrls (removeTags l)))

/-- sanitizeText on Lean strings, including the falsy-empty guard. -/
def sanitizeText (s : String) : String :=
  if s = "" then "" else String.mk (sanitizeTextL s.data)

/-! ### textValidation.js : validateText -/

/-- MAX_TEXT_LENGTH (utils/textValidation.js). -/
def MAX_TEXT_LENGTH : Nat := 100000

/-- MIN_TEXT_LENGTH (utils/textValidation.js). -/
def MIN_TEXT_LENGTH : Nat := 10

/-- The validation result record {isValid, message}. -/
structure ValidationResult where
  isValid : Bool
  message : String
deriving DecidableEq, Repr

/-- Message returned for falsy (empty) input. -/
def emptyMsg : String := "Please enter some text to analyze."

/-- Message returned for input below MIN_TEXT_LENGTH, with the constant
interpolated as in the source template literal. -/
def tooShortMsg : String := "Text is too short. Minimum length is 10 characters."

/-- Message returned for input above MAX_TEXT_LENGTH, with the constant
interpolated as in the source template literal. -/
def tooLongMsg : String := "Text is too long. Maximum length is 100000 characters."

/-- validateText (utils/textValidation.js, lines 41-67). -/
def validateText (text : String) : ValidationResult :=
  if text = "" then ⟨false, emptyMsg⟩
  else if text.length < MIN_TEXT_LENGTH then ⟨false, tooShortMsg⟩
  else if MAX_TEXT_LENGTH < text.length then ⟨false, tooLongMsg⟩
  else ⟨true, ""⟩

/-- Does the first list occur as a contiguous run at the head of the
second list? -/
def leadsWith : List Char → List Char → Bool
  | [], _ => true
  | _ :: _, [] => false
  | p :: ps, c :: cs => p == c && leadsWith ps cs

/-- Does the pattern occur contiguously anywhere in the text?  Used to
state that a message mentions a numeric bound. -/
def hasSubstr (pat : List Char) : List Char → Bool
  | [] => leadsWith pat []
  | c :: cs => leadsWith pat (c :: cs) || hasSubstr pat cs

/-! ### textValidation.js : checkTextSafety

The three module-level regexes URL_REGEX, HTML_TAG_REGEX and
SPECIAL_CHARS_REGEX carry the g flag, and checkTextSafety calls .test on
them.  Per the ECMAScript specification, .test on a g-flagged regex
starts searching at the regex object's lastIndex property, sets lastIndex
to the end of the match on success, and resets lastIndex to 0 on failure.
The three lastIndex values are therefore module state that persists
across calls, and the embedding makes that state explicit. -/

/-- Length of the URL_REGEX match starting at the head of the list, if
one starts there: the literal prefix and the greedy [^\s]+ together cover
exactly the leading non-whitespace run. -/
def urlMatchLen (l : List Char) : Option Nat :=
  if urlStart l then some (l.takeWhile (fun d => !isJsSpace d)).length
  else none

/-- Length of the HTML_TAG_REGEX = <[^>]*> match starting at the head of
the list, if one starts there: from the opening < through the first
subsequent >. -/
def htmlMatchLen : List Char → Option Nat
  | [] => none
  | c :: rest =>
    if c = '<' ∧ rest.contains '>' then
      some (1 + (rest.takeWhile (· ≠ '>')).length + 1)
    else none

/-- Length of the SPECIAL_CHARS_REGEX = [^\w\s.,!?-] match starting at
the head of the list, if one starts there: a single character. -/
def specialMatchLen : List Char → Option Nat
  | [] => none
  | c :: _ => if isSpecialChar c then some 1 else none

/-- End position of the first match at or after the given position, for a
matcher that reports the match length at the head of a suffix. -/
def scanMatchEnd (p : List Char → Option Nat) : List Char → Nat → Option Nat
  | [], pos =>
    match p [] with
    | some len => some (pos + len)
    | none => none
  | l@(_ :: rest), pos =>
    match p l with
    | some len => some (pos + len)
    | none => scanMatchEnd p rest (pos + 1)

/-- RegExp.prototype.test on a g-flagged regex: search from lastIndex; on
success return true and the new lastIndex (the match end), on failure
return false and reset lastIndex to 0. -/
def jsTestG (p : List Char → Option Nat) (text : List Char) (lastIndex : Nat) :
    Bool × Nat :=
  match scanMatchEnd p (text.drop lastIndex) lastIndex with
  | some e => (true, e)
  | none => (false, 0)

/-- The lastIndex state of the three module-level regexes of
utils/textValidation.js. -/
structure RegexState where
  url : Nat
  html : Nat
  special : Nat
deriving DecidableEq, Repr

/-- The initial state: every lastIndex is 0 when the module loads. -/
def initialRegexState : RegexState := ⟨0, 0, 0⟩

/-- The safety result record {isSafe, message}. -/
structure SafetyResult where
  isSafe : Bool
  message : String
deriving DecidableEq, Repr

/-- Message for text containing URLs or HTML tags. -/
def blockedMsg : String :=
  "Text contains potentially unsafe content (URLs or HTML tags)."

/-- Advisory message for text containing special characters. -/
def specialCharsMsg : String :=
  "Text contains special characters that may affect analysis accuracy."

/-- checkTextSafety (utils/textValidation.js, lines 89-112), with the
regex lastIndex state passed explicitly: the three .test calls run
unconditionally before the branching, each reading and updating its
regex's lastIndex. -/
def checkTextSafety (st : RegexState) (text : String) :
    RegexState × SafetyResult :=
  let u := jsTestG urlMatchLen text.data st.url
  let h := jsTestG htmlMatchLen text.data st.html
  let sp := jsTestG specialMatchLen text.data st.special
  let st2 : RegexState := ⟨u.2, h.2, sp.2⟩
  if u.1 || h.1 then
    (st2, ⟨false, blockedMsg⟩)
  else if sp.1 then
    (st2, ⟨true, specialCharsMsg⟩)
  else
    (st2, ⟨true, ""⟩)

/-! ### textAnalysis.js : calculateBasicMetrics -/

/-- Does the text start with a word character? -/
def headIsWord : List Char → Bool
  | [] => false
  | d :: _ => isWordChar d

/-- Prepend a character to the first run. -/
def consRun (c : Char) : List (List Char) → List (List Char)
  | [] => [[c]]
  | r :: rs => (c :: r) :: rs

/-- The word extraction regex \b\w+\b: its matches on a text are exactly
the maximal runs of word characters.  A word character is merged into
the run that starts immediately after it when the next character is
also a word character, and opens a new run otherwise. -/
def wordRuns : List Char → List (List Char)
  | [] => []
  | c :: rest =>
    if isWordChar c then
      if headIsWord rest then consRun c (wordRuns rest)
      else [c] :: wordRuns rest
    else wordRuns rest

/-- Prepend a character to the first piece of a split result. -/
def consPiece (c : Char) : List (List Char) → List (List Char)
  | [] => [[c]]
  | p :: ps => (c :: p) :: ps

/-- Prepend a character list to the first piece of a split result. -/
def consPieces (b : List Char) : List (List Char) → List (List Char)
  | [] => [b]
  | p :: ps => (b ++ p) :: ps

/-- text.split(/[.!?]+\s*/): a separator starts at each sentence
punctuation character and greedily covers the punctuation run and any
following whitespace; the pieces between separators are returned,
including empty ones.  Mode 0 scans piece content, mode 1 consumes the
punctuation run of a separator, mode 2 consumes its trailing
whitespace. -/
def sentenceSplitAux : Nat → List Char → List (List Char)
  | _, [] => [[]]
  | 0, c :: rest =>
    if isSentencePunct c then [] :: sentenceSplitAux 1 rest
    else consPiece c (sentenceSplitAux 0 rest)
  | 1, c :: rest =>
    if isSentencePunct c then sentenceSplitAux 1 rest
    else if isJsSpace c then sentenceSplitAux 2 rest
    else consPiece c (sentenceSplitAux 0 rest)
  | _, c :: rest =>
    if isJsSpace c then sentenceSplitAux 2 rest
    else if isSentencePunct c then [] :: sentenceSplitAux 1 rest
    else consPiece c (sentenceSplitAux 0 rest)

/-- text.split(/[.!?]+\s*/), all pieces including empty ones. -/
def sentenceSplit (l : List Char) : List (List Char) :=
  sentenceSplitAux 0 l

/-- Scanner state for paragraph splitting: either plain piece content,
or inside the whitespace run that follows a newline, recording whether
a second newline has been seen (making the run a separator match) and
buffering the whitespace seen since the most recent newline (the greedy
\s* of the separator backtracks to end at the last newline, so that
buffered whitespace belongs to the next piece). -/
inductive ParaState where
  | norm : ParaState
  | run : Bool → List Char → ParaState

/-- text.split(/\n\s*\n/): a separator match starts at a newline whose
maximal following whitespace run contains another newline, and ends
just after the last newline of that run. -/
def paragraphSplitAux : ParaState → List Char → List (List Char)
  | .norm, [] => [[]]
  | .run false buf, [] => [('\n' :: buf)]
  | .run true buf, [] => [[], buf]
  | .norm, c :: rest =>
    if c = '\n' then paragraphSplitAux (.run false []) rest
    else consPiece c (paragraphSplitAux .norm rest)
  | .run seen buf, c :: rest =>
    if c = '\n' then paragraphSplitAux (.run true []) rest
    else if isJsSpace c then paragraphSplitAux (.run seen (buf ++ [c])) rest
    else if seen then
      [] :: consPieces buf (consPiece c (paragraphSplitAux .norm rest))
    else consPieces ('\n' :: buf) (consPiece c (paragraphSplitAux .norm rest))

/-- text.split(/\n\s*\n/), all pieces including empty ones. -/
def paragraphSplit (l : List Char) : List (List Char) :=
  paragraphSplitAux .norm l

/-- Number.prototype.toFixed(2) on the exact rational n / d (with d > 0):
round half away from zero to two decimals and print with a two-digit
fraction.  This agrees with the JavaScript double computation whenever
the quotient is not within double rounding error of a midpoint, which
holds at every input evaluated in this file. -/
def toFixed2 (n d : Nat) : String :=
  let m := (200 * n + d) / (2 * d)
  let frac := m % 100
  toString (m / 100) ++ "." ++
    (if frac < 10 then "0" ++ toString frac else toString frac)

/-- The avgWordLength field: the string produced by toFixed(2) when the
word count is positive, the number 0 otherwise. -/
inductive AvgWordLength where
  | numZero : AvgWordLength
  | fixed : String → AvgWordLength
deriving DecidableEq, Repr

/-- The basic metrics record of calculateBasicMetrics. -/
structure BasicMetrics where
  charCount : Nat
  charNoSpacesCount : Nat
  wordCount : Nat
  sentenceCount : Nat
  paragraphCount : Nat
  avgWordLength : AvgWordLength
deriving DecidableEq, Repr

/-- calculateBasicMetrics (src/js/app.js, lines 353-368): words are the
\b\w+\b matches of the normalized text; sentences and paragraphs are the
nonempty pieces of splitting the raw text; character counts are on the
raw text; avgWordLength divides the space-free character count of the
raw text by the word count. -/
def calculateBasicMetrics (text : String) : BasicMetrics :=
  let words := wordRuns (normalizeText text).data
  let noSpaces := (text.data.filter (fun c => !isJsSpace c)).length
  { charCount := text.length
    charNoSpacesCount := noSpaces
    wordCount := words.length
    sentenceCount := ((sentenceSplit text.data).filter (· ≠ [])).length
    paragraphCount := ((paragraphSplit text.data).filter (· ≠ [])).length
    avgWordLength :=
      if 0 < words.length then .fixed (toFixed2 noSpaces words.length)
      else .numZero }

/-! ### textAnalysis.js : countSyllablesInWord -/

/-- Membership in the regex class [laeiouy] used (negated) by the
ending-stripping regex of countSyllablesInWord. -/
def isLaeiouy (c : Char) : Bool :=
  c == 'l' || c == 'a' || c == 'e' || c == 'i' || c == 'o' ||
  c == 'u' || c == 'y'

/-- Vowel characters [aeiouy] counted as syllable nuclei. -/
def isVowelY (c : Char) : Bool :=
  c == 'a' || c == 'e' || c == 'i' || c == 'o' || c == 'u' || c == 'y'

/-- Does a branch of the anchored regex (?:[^laeiouy]es|ed|[^laeiouy]e)$
match here and run to the end of the word?  Every branch is anchored at
the end, so at a given start position a branch succeeds exactly when it
consumes the entire remaining suffix: three characters for the first
branch, two for the others. -/
def endingMatch : List Char → Bool
  | [a, b, c] => if b = 'e' ∧ c = 's' then !isLaeiouy a else false
  | [a, b] => (a = 'e' ∧ b = 'd') || (b = 'e' && !isLaeiouy a)
  | _ => false

/-- word.replace(/(?:[^laeiouy]es|ed|[^laeiouy]e)$/, ''): the scanner
looks for the leftmost position where a branch matches through to the
end of the word and deletes from there; if no position matches, the word
is unchanged. -/
def stripEnding : List Char → List Char
  | [] => []
  | c :: rest => if endingMatch (c :: rest) then [] else c :: stripEnding rest

/-- word.replace(/^y/, ''): drop a single leading y. -/
def stripLeadingY : List Char → List Char
  | 'y' :: rest => rest
  | l => l

/-- Number of matches of /[aeiouy]{1,2}/g: the greedy quantifier takes
two vowels when it can, one otherwise, scanning left to right. -/
def countVowelRuns : List Char → Nat
  | [] => 0
  | [c] => if isVowelY c then 1 else 0
  | c :: d :: rest =>
    if isVowelY c then
      if isVowelY d then 1 + countVowelRuns rest
      else 1 + countVowelRuns (d :: rest)
    else countVowelRuns (d :: rest)

/-- countSyllablesInWord (src/js/app.js, lines 375-384): lowercase the
word; words of length at most three count one syllable; otherwise strip
the inflectional ending, strip a leading y, count vowel-run matches, and
report one syllable when no match remains. -/
def countSyllablesInWord (word : String) : Nat :=
  let w := word.data.map Char.toLower
  if w.length ≤ 3 then 1
  else
    let stripped := stripLeadingY (stripEnding w)
    let runs := countVowelRuns stripped
    if runs = 0 then 1 else runs

/-! ### textAnalysis.js : readability formulas

The JavaScript number arguments and results are modelled as exact
rationals; the zero guards the claims are about behave identically for
IEEE doubles and rationals. -/

/-- calculateFleschReadingEase (src/js/app.js, lines 403-406). -/
def calculateFleschReadingEase (wordCount sentenceCount syllableCount : ℚ) : ℚ :=
  if wordCount = 0 ∨ sentenceCount = 0 then 0
  else 206.835 - 1.015 * (wordCount / sentenceCount)
    - 84.6 * (syllableCount / wordCount)

/-- calculateFleschKincaidGrade (src/js/app.js, lines 415-418). -/
def calculateFleschKincaidGrade (wordCount sentenceCount syllableCount : ℚ) : ℚ :=
  if wordCount = 0 ∨ sentenceCount = 0 then 0
  else 0.39 * (wordCount / sentenceCount)
    + 11.8 * (syllableCount / wordCount) - 15.59

/-- calculateColemanLiauIndex (src/js/app.js, lines 427-432). -/
def calculateColemanLiauIndex (charCount wordCount sentenceCount : ℚ) : ℚ :=
  if wordCount = 0 ∨ sentenceCount = 0 then 0
  else
    let L := charCount / wordCount * 100
    let S := sentenceCount / wordCount * 100
    0.0588 * L - 0.296 * S - 15.8

/-! ### textAnalysis.js : analyzeWordFrequency

The accumulator models the plain JavaScript object wordFreq: property
insertion keeps first-insertion order for string keys, but
Object.entries enumerates array-index keys (canonical numeric strings
below 2^32 - 1) first, in ascending numeric order, before the remaining
string keys in insertion order. -/

/-- wordFreq[word] = (wordFreq[word] || 0) + 1 on the insertion-ordered
entry list: bump the count if the key exists, append it otherwise. -/
def bumpWord : List (String × Nat) → String → List (String × Nat)
  | [], w => [(w, 1)]
  | (k, c) :: rest, w =>
    if k = w then (k, c + 1) :: rest else (k, c) :: bumpWord rest w

/-- The words.forEach loop of analyzeWordFrequency: count each token
whose length exceeds minLength. -/
def buildFreq (minLength : Nat) (toks : List String)
    (acc : List (String × Nat)) : List (String × Nat) :=
  match toks with
  | [] => acc
  | w :: ws =>
    buildFreq minLength ws (if minLength < w.length then bumpWord acc w else acc)

/-- Numeric value of a list of ASCII digits. -/
def digitsToNat (l : List Char) : Nat :=
  l.foldl (fun n c => 10 * n + (c.toNat - '0'.toNat)) 0

/-- Is the string a canonical array-index property key: a nonempty digit
string without a leading zero (except "0" itself) whose value is below
2^32 - 1? -/
def isArrayIndexStr (s : String) : Bool :=
  match s.data with
  | [] => false
  | c :: cs =>
    (c :: cs).all isDigitChar && (c ≠ '0' || cs.isEmpty) &&
      digitsToNat (c :: cs) < 4294967295

/-- Stable insertion (ascending by array-index value) used to model the
ordering of array-index keys in Object.entries. -/
def insertIdxAsc (x : String × Nat) : List (String × Nat) → List (String × Nat)
  | [] => [x]
  | y :: ys =>
    if digitsToNat y.1.data ≤ digitsToNat x.1.data then y :: insertIdxAsc x ys
    else x :: y :: ys

/-- Sort entries ascending by array-index value. -/
def sortIdxAsc : List (String × Nat) → List (String × Nat)
  | [] => []
  | x :: xs => insertIdxAsc x (sortIdxAsc xs)

/-- Object.entries on the insertion-ordered entry list: array-index keys
first in ascending numeric order, then the remaining keys in insertion
order. -/
def jsEntries (l : List (String × Nat)) : List (String × Nat) :=
  sortIdxAsc (l.filter (fun p => isArrayIndexStr p.1)) ++
    l.filter (fun p => !isArrayIndexStr p.1)

/-- Stable insertion for the descending count order: the inserted
element goes after every earlier element with a strictly larger count
and before the first with a smaller or equal one, which is exactly where
the ES2019 stable Array.prototype.sort with comparator (a, b) => b - a
places it. -/
def insertCountDesc (x : String × Nat) :
    List (String × Nat) → List (String × Nat)
  | [] => [x]
  | y :: ys =>
    if x.2 < y.2 then y :: insertCountDesc x ys else x :: y :: ys

/-- The comparator sort .sort(([,a],[,b]) => b - a): stable sort
descending by count.  A
stable sort under a fixed comparison is unique, so this insertion sort
produces the same list as the engine's merge sort. -/
def sortCountDesc : List (String × Nat) → List (String × Nat)
  | [] => []
  | x :: xs => insertCountDesc x (sortCountDesc xs)

/-- The word tokens fed to the frequency counter: the \b\w+\b matches of
the normalized text. -/
def freqTokens (text : String) : List String :=
  (wordRuns (normalizeText text).data).map String.mk

/-- analyzeWordFrequency (src/js/app.js, lines 512-525):
Object.entries(wordFreq).sort(([,a],[,b]) => b - a).slice(0, maxWords). -/
def analyzeWordFrequency (text : String) (minLength : Nat := 2)
    (maxWords : Nat := 10) : List (String × Nat) :=
  (sortCountDesc (jsEntries (buildFreq minLength (freqTokens text) []))).take
    maxWords

/-- Index of the first occurrence of a word in the token stream. -/
def firstTokenIdx (toks : List String) (w : String) : Nat :=
  toks.findIdx (· = w)

/-! ### Specification-side definitions

These definitions follow the wording of spec sentences, for comparison
against the embeddings above; they are not translations of the source. -/

/-- The ending-stripping step as the specification words it, parametric
in which characters count as consonants: strip a trailing
consonant-plus-es, else a trailing ed, else a trailing
consonant-plus-single-e; otherwise leave the word unchanged. -/
def specStripEnding (cons : Char → Bool) (l : List Char) : List Char :=
  match l.reverse with
  | a :: b :: rest =>
    if a = 's' ∧ b = 'e' then
      match rest with
      | c :: rest2 => if cons c then rest2.reverse else l
      | [] => l
    else if a = 'd' ∧ b = 'e' then rest.reverse
    else if a = 'e' then (if cons b then rest.reverse else l)
    else l
  | _ => l

/-- The syllable-counting pipeline as the claim words it, with the
ending-stripping step replaced by the specification-side one: lowercase,
short words count one, strip the ending, strip a leading y, count vowel
runs, and report at least one syllable. -/
def specCountSyllables (cons : Char → Bool) (word : String) : Nat :=
  let w := word.data.map Char.toLower
  if w.length ≤ 3 then 1
  else
    let stripped := stripLeadingY (specStripEnding cons w)
    let runs := countVowelRuns stripped
    if runs = 0 then 1 else runs

/-- Consonant as claim C4 words it: any letter that is not one of
a, e, i, o, u, y — so the letter l counts as a consonant. -/
def consonantPerClaim (c : Char) : Bool := !isVowelY c

/-- Consonant as the source regex class [^laeiouy] has it: additionally
excluding the letter l. -/
def consonantPerCode (c : Char) : Bool := !isLaeiouy c

end TextAnalyzer

namespace TextAnalyzer

open List

/-! ## Theorems -/

/-! ### Character facts -/

/-- Char order is the order of code points. -/
theorem char_le_iff_toNat_le {a b : Char} : a ≤ b ↔ a.toNat ≤ b.toNat :=
  Iff.rfl

/-- Lowercasing an uppercase ASCII letter adds 32 to its code point. -/
theorem toNat_toLower_of_upper {c : Char} (h1 : 65 ≤ c.toNat)
    (h2 : c.toNat ≤ 90) : (c.toLower).toNat = c.toNat + 32 := by
  unfold Char.toLower
  rw [if_pos ⟨h1, h2⟩]
  rw [Char.ofNat, dif_pos (Or.inl (by omega))]
  simp [Char.ofNatAux, Char.toNat, UInt32.toNat]

/-- The uppercase test in terms of code points. -/
theorem upper_iff {c : Char} :
    isUpperAlpha c = true ↔ 65 ≤ c.toNat ∧ c.toNat ≤ 90 := by
  simp [isUpperAlpha, char_le_iff_toNat_le]

/-- Lowercasing fixes characters that are not uppercase ASCII letters. -/
theorem toLower_of_not_upper {c : Char} (h : isUpperAlpha c = false) :
    Char.toLower c = c := by
  unfold Char.toLower
  rw [if_neg]
  intro hc
  rw [show ((65 ≤ c.toNat ∧ c.toNat ≤ 90)) ↔ isUpperAlpha c = true from
    upper_iff.symm] at hc
  simp [hc] at h

/-- Lowercasing never produces an uppercase ASCII letter. -/
theorem not_upper_toLower (c : Char) :
    isUpperAlpha (Char.toLower c) = false := by
  by_cases h : isUpperAlpha c = true
  · have hn := toNat_toLower_of_upper (upper_iff.mp h).1 (upper_iff.mp h).2
    have h90 := (upper_iff.mp h).2
    have h65 := (upper_iff.mp h).1
    by_contra hu
    have h2 := upper_iff.mp (by simpa using hu)
    omega
  · rw [toLower_of_not_upper (by simpa using h)]
    simpa using h

/-- A URL match starts with the letter h. -/
theorem urlStart_head {l : List Char} (h : urlStart l = true) :
    ∃ rest, l = 'h' :: rest := by
  unfold urlStart at h
  split at h
  · exact ⟨_, rfl⟩
  · exact ⟨_, rfl⟩
  · exact absurd h (by simp)

/-- Claim C1: the claim states that checkTextSafety is a pure, stateless
function of its input.  The code violates this: the three module-level
regexes carry the g flag, so .test advances their lastIndex.  Two
consecutive invocations on the same string return different
SafetyResults: the first blocks the URL, the second — resuming the URL
search past the match — reports the text safe with only the
special-characters advisory. -/
theorem c1_checkTextSafety_stateful :
    (checkTextSafety initialRegexState "http://a").2 =
      ⟨false, blockedMsg⟩ ∧
    (checkTextSafety (checkTextSafety initialRegexState "http://a").1
        "http://a").2 = ⟨true, specialCharsMsg⟩ ∧
    (checkTextSafety initialRegexState "http://a").2 ≠
      (checkTextSafety (checkTextSafety initialRegexState "http://a").1
        "http://a").2 := by
  decide

/-- Claim C2, counterexample: on the literal string
"Hello world. This is a test." the code does not return the claimed
record — the string has 28 characters, 23 of them non-whitespace, and
the average word length is 23/6 = "3.83", not 29/24/"4.00". -/
theorem c2_counterexample :
    calculateBasicMetrics "Hello world. This is a test." ≠
      { charCount := 29, charNoSpacesCount := 24, wordCount := 6,
        sentenceCount := 2, paragraphCount := 1,
        avgWordLength := .fixed "4.00" } := by
  decide

/-- Claim C2, amended: calculateBasicMetrics on the literal string
"Hello world. This is a test." returns charCount = 28,
charNoSpacesCount = 23, wordCount = 6, sentenceCount = 2,
paragraphCount = 1 and avgWordLength = "3.83" (23/6 to two decimals). -/
theorem c2_basicMetrics_example :
    calculateBasicMetrics "Hello world. This is a test." =
      { charCount := 28, charNoSpacesCount := 23, wordCount := 6,
        sentenceCount := 2, paragraphCount := 1,
        avgWordLength := .fixed "3.83" } := by
  decide

/-- Claim C3, counterexample: on the empty string the claim requires a
TooShort failure whose message states the minimum, but the code returns
the distinct Empty message, which does not mention 10. -/
theorem c3_counterexample :
    (validateText "").isValid = false ∧
    (validateText "").message ≠ tooShortMsg ∧
    hasSubstr "10".data (validateText "").message.data = false := by
  decide

/-- Claim C3, amended: validateText fails on the empty string with the
Empty message (which does not state the minimum); it fails on nonempty
input shorter than 10 with the TooShort message stating the minimum;
it fails on input longer than 100000 with the TooLong message stating
the maximum; otherwise it succeeds with an empty message. -/
theorem c3_validateText_spec (t : String) :
    (t = "" → validateText t = ⟨false, emptyMsg⟩) ∧
    (t ≠ "" → t.length < 10 → validateText t = ⟨false, tooShortMsg⟩) ∧
    (t ≠ "" → 100000 < t.length → validateText t = ⟨false, tooLongMsg⟩) ∧
    (t ≠ "" → 10 ≤ t.length → t.length ≤ 100000 →
      validateText t = ⟨true, ""⟩) ∧
    hasSubstr "10".data tooShortMsg.data = true ∧
    hasSubstr "100000".data tooLongMsg.data = true := by
  unfold validateText MIN_TEXT_LENGTH MAX_TEXT_LENGTH
  refine ⟨?_, ?_, ?_, ?_, by decide, by decide⟩
  · intro h; simp [h]
  · intro h1 h2; rw [if_neg h1, if_pos h2]
  · intro h1 h2
    rw [if_neg h1, if_neg (by omega), if_pos h2]
  · intro h1 h2 h3
    rw [if_neg h1, if_neg (by omega), if_neg (by omega)]

/-- Witness for the amended claim C3 at concrete inputs: a five-character
string fails as TooShort and a 36-character string passes. -/
theorem c3_witness :
    validateText "short" = ⟨false, tooShortMsg⟩ ∧
    validateText "This text is long enough to analyze." = ⟨true, ""⟩ :=
  ⟨(c3_validateText_spec "short").2.1 (by decide) (by decide),
   (c3_validateText_spec "This text is long enough to analyze.").2.2.2.1
     (by decide) (by decide) (by decide)⟩

/-- Claim C6: the three readability formulas return exactly 0 whenever
the word count or the sentence count is 0, for arbitrary remaining
arguments; the guard fires before any division. -/
theorem c6_readability_zero_guard (w s syl ch : ℚ)
    (h : w = 0 ∨ s = 0) :
    calculateFleschReadingEase w s syl = 0 ∧
    calculateFleschKincaidGrade w s syl = 0 ∧
    calculateColemanLiauIndex ch w s = 0 := by
  refine ⟨?_, ?_, ?_⟩ <;>
    simp only [calculateFleschReadingEase, calculateFleschKincaidGrade,
      calculateColemanLiauIndex, if_pos h]

/-- Witness for claim C6 at word count 0, sentence count 5, syllable
count 7 and character count 3. -/
theorem c6_witness :
    ((0 : ℚ) = 0 ∨ (5 : ℚ) = 0) ∧
    (calculateFleschReadingEase 0 5 7 = 0 ∧
     calculateFleschKincaidGrade 0 5 7 = 0 ∧
     calculateColemanLiauIndex 3 0 5 = 0) :=
  ⟨Or.inl rfl, c6_readability_zero_guard 0 5 7 3 (Or.inl rfl)⟩

/-- Claim C9: countSyllablesInWord is total on nonempty alphabetic words
and always returns at least one syllable, in particular when the
stripping steps remove every vowel. -/
theorem c9_countSyllablesInWord_pos (w : String) (h1 : w ≠ "")
    (h2 : ∀ c ∈ w.data, isLowerAlpha c = true) :
    1 ≤ countSyllablesInWord w := by
  simp only [countSyllablesInWord]
  split
  · exact Nat.le_refl 1
  · split
    · exact Nat.le_refl 1
    · omega

/-- Witness for claim C9 on a nonempty lowercase alphabetic word with no
vowel characters at all. -/
theorem c9_witness : 1 ≤ countSyllablesInWord "bcdfgh" :=
  c9_countSyllablesInWord_pos "bcdfgh" (by decide) (by decide)

/-- Claim C4, counterexample: the claim says the letter l counts as a
consonant for the ending-stripping rule, so on "tables" it would strip
the trailing "les" and count one syllable, but the source class
[^laeiouy] excludes l, the ending of "tables" is not stripped, and the
code counts two syllables. -/
theorem c4_counterexample :
    countSyllablesInWord "tables" = 2 ∧
    specCountSyllables consonantPerClaim "tables" = 1 ∧
    countSyllablesInWord "tables" ≠
      specCountSyllables consonantPerClaim "tables" := by
  decide

/-- The specification-side stripper ignores a character prepended in
front of at least three others: the trailing patterns involve only the
last three characters. -/
theorem specStripEnding_cons (cons : Char → Bool) (c : Char)
    (l : List Char) (h : 3 ≤ l.length) :
    specStripEnding cons (c :: l) = c :: specStripEnding cons l := by
  match hrev : l.reverse with
  | [] =>
    have h0 : l.reverse.length = 0 := by rw [hrev]; rfl
    rw [List.length_reverse] at h0; omega
  | [a] =>
    have h0 : l.reverse.length = 1 := by rw [hrev]; rfl
    rw [List.length_reverse] at h0; omega
  | [a, b] =>
    have h0 : l.reverse.length = 2 := by rw [hrev]; rfl
    rw [List.length_reverse] at h0; omega
  | a :: b :: d :: t =>
    have hcl : (c :: l).reverse = a :: b :: d :: (t ++ [c]) := by
      rw [List.reverse_cons, hrev]; rfl
    by_cases h1 : a = 's' ∧ b = 'e'
    · by_cases h2 : cons d
      · simp [specStripEnding, hrev, hcl, h1, h2]
      · simp [specStripEnding, hrev, hcl, h1, h2]
    · by_cases h2 : a = 'd' ∧ b = 'e'
      · simp [specStripEnding, hrev, hcl, h1, h2]
      · by_cases h3 : a = 'e'
        · by_cases h4 : cons b
          · simp [specStripEnding, hrev, hcl, h1, h2, h3, h4]
          · simp [specStripEnding, hrev, hcl, h1, h2, h3, h4]
        · simp [specStripEnding, hrev, hcl, h1, h2, h3]

/-- When a branch of the ending regex matches a whole word, the
specification-side stripper (with the source consonant class) deletes
exactly that word. -/
theorem specStripEnding_of_endingMatch {l : List Char}
    (h : endingMatch l = true) :
    specStripEnding consonantPerCode l = [] := by
  match l with
  | [a, b, c] =>
    simp only [endingMatch] at h
    split at h
    · rename_i hbc
      simp [specStripEnding, hbc.1, hbc.2, consonantPerCode, h]
    · exact absurd h (by simp)
  | [a, b] =>
    simp only [endingMatch, Bool.or_eq_true, decide_eq_true_eq] at h
    rcases h with h | h
    · simp [specStripEnding, h.1, h.2]
    · have hb : b = 'e' := by
        rcases Bool.and_eq_true .. |>.mp h with ⟨h1, _⟩
        exact of_decide_eq_true h1
      have ha : isLaeiouy a = false := by
        rcases Bool.and_eq_true .. |>.mp h with ⟨_, h2⟩
        simpa using h2
      by_cases hs : a = 'e' ∧ b = 'd'
      · rw [hs.2] at hb; exact absurd hb (by decide)
      · simp [specStripEnding, hb, consonantPerCode, ha,
          show ¬(b = 's' ∧ a = 'e') by rw [hb]; simp,
          show ¬(b = 'd' ∧ a = 'e') by rw [hb]; simp]
  | [] => exact absurd h (by simp [endingMatch])
  | [a] => exact absurd h (by simp [endingMatch])
  | a :: b :: c :: d :: t => exact absurd h (by simp [endingMatch])

/-- The left-to-right scan of the source regex replacement agrees with
the specification-side suffix analysis, for the source consonant class
[^laeiouy]. -/
theorem stripEnding_eq_spec (l : List Char) :
    stripEnding l = specStripEnding consonantPerCode l := by
  induction l with
  | nil => rfl
  | cons c rest ih =>
    by_cases h : endingMatch (c :: rest) = true
    · rw [show stripEnding (c :: rest) = [] by simp [stripEnding, h],
        specStripEnding_of_endingMatch h]
    · have hs : stripEnding (c :: rest) = c :: stripEnding rest := by
        simp [stripEnding, h]
      rw [hs, ih]
      rcases rest with _ | ⟨b, _ | ⟨d, _ | ⟨x, t⟩⟩⟩
      · rfl
      · -- rest = [b]
        by_cases h1 : b = 's' ∧ c = 'e'
        · simp [specStripEnding, h1]
        · by_cases h2 : b = 'd' ∧ c = 'e'
          · exact absurd (by simp [endingMatch, h2.1, h2.2]) h
          · by_cases h3 : b = 'e'
            · have h4 : isLaeiouy c = true := by
                by_contra h5
                exact h (by simp [endingMatch, h3,
                  Bool.not_eq_true _ ▸ eq_false_of_ne_true h5] )
              simp [specStripEnding, h1, h2, h3, consonantPerCode, h4]
            · simp [specStripEnding, h1, h2, h3]
      · -- rest = [b, d]
        by_cases h1 : d = 's' ∧ b = 'e'
        · have h4 : isLaeiouy c = true := by
            by_contra h5
            exact h (by simp [endingMatch, h1.1, h1.2,
              Bool.not_eq_true _ ▸ eq_false_of_ne_true h5])
          simp [specStripEnding, h1, consonantPerCode, h4]
        · by_cases h2 : d = 'd' ∧ b = 'e'
          · simp [specStripEnding, h1, h2]
          · by_cases h3 : d = 'e'
            · by_cases h4 : consonantPerCode b
              · simp [specStripEnding, h1, h2, h3, h4]
              · simp [specStripEnding, h1, h2, h3, h4]
            · simp [specStripEnding, h1, h2, h3]
      · -- rest has at least three characters
        exact (specStripEnding_cons _ c _ (by simp)).symm

/-! ### Whitespace collapsing: shape lemmas -/

/-- Unfolding: a whitespace character inside a run is dropped. -/
theorem cwAux_cons_ws_true {x : Char} {rest : List Char}
    (hx : isJsSpace x = true) : cwAux true (x :: rest) = cwAux true rest := by
  simp [cwAux, hx]

/-- Unfolding: a whitespace character opening a run becomes a space. -/
theorem cwAux_cons_ws_false {x : Char} {rest : List Char}
    (hx : isJsSpace x = true) :
    cwAux false (x :: rest) = ' ' :: cwAux true rest := by
  simp [cwAux, hx]

/-- Unfolding: a non-whitespace character is kept and ends any run. -/
theorem cwAux_cons_nonws {b : Bool} {x : Char} {rest : List Char}
    (hx : isJsSpace x = false) :
    cwAux b (x :: rest) = x :: cwAux false rest := by
  cases b <;> simp [cwAux, hx]

/-- Every character of the collapsed text is a character of the input or
a space. -/
theorem mem_cwAux {b : Bool} {l : List Char} {c : Char}
    (h : c ∈ cwAux b l) : c ∈ l ∨ c = ' ' := by
  induction l generalizing b with
  | nil => simp [cwAux] at h
  | cons x rest ih =>
    by_cases hx : isJsSpace x = true
    · cases b with
      | true =>
        rw [cwAux_cons_ws_true hx] at h
        rcases ih h with h1 | h1
        · exact Or.inl (List.mem_cons_of_mem _ h1)
        · exact Or.inr h1
      | false =>
        rw [cwAux_cons_ws_false hx] at h
        rcases List.mem_cons.mp h with h1 | h1
        · exact Or.inr h1
        · rcases ih h1 with h2 | h2
          · exact Or.inl (List.mem_cons_of_mem _ h2)
          · exact Or.inr h2
    · rw [cwAux_cons_nonws (by simpa using hx)] at h
      rcases List.mem_cons.mp h with h1 | h1
      · exact Or.inl (h1 ▸ List.mem_cons_self _ _)
      · rcases ih h1 with h2 | h2
        · exact Or.inl (List.mem_cons_of_mem _ h2)
        · exact Or.inr h2

/-- The head of the remainder of a run being collapsed is never
whitespace. -/
theorem cwAux_true_head {l : List Char} {y : Char} {ys : List Char}
    (h : cwAux true l = y :: ys) : isJsSpace y = false := by
  induction l with
  | nil => simp [cwAux] at h
  | cons x rest ih =>
    by_cases hx : isJsSpace x = true
    · rw [cwAux_cons_ws_true hx] at h
      exact ih h
    · rw [cwAux_cons_nonws (by simpa using hx)] at h
      cases h
      simpa using hx

/-- Collapsed text never has two adjacent whitespace characters. -/
theorem chain_cwAux (b : Bool) (l : List Char) :
    List.Chain' NoWsPair (cwAux b l) := by
  induction l generalizing b with
  | nil => simp [cwAux]
  | cons x rest ih =>
    by_cases hx : isJsSpace x = true
    · cases b with
      | true => rw [cwAux_cons_ws_true hx]; exact ih true
      | false =>
        rw [cwAux_cons_ws_false hx]
        rw [List.chain'_cons']
        refine ⟨?_, ih true⟩
        intro y hy
        cases hcw : cwAux true rest with
        | nil => rw [hcw] at hy; simp at hy
        | cons z zs =>
          rw [hcw] at hy; simp at hy
          subst hy
          have := cwAux_true_head hcw
          intro hpair
          rw [this] at hpair
          exact absurd hpair.2 (by simp)
    · rw [cwAux_cons_nonws (by simpa using hx)]
      rw [List.chain'_cons']
      refine ⟨?_, ih false⟩
      intro y _ hpair
      exact hx hpair.1

/-- Whitespace characters of collapsed text are plain spaces. -/
theorem ws_eq_space_cwAux {b : Bool} {l : List Char} :
    ∀ c ∈ cwAux b l, isJsSpace c = true → c = ' ' := by
  induction l generalizing b with
  | nil => simp [cwAux]
  | cons x rest ih =>
    intro c hc hws
    by_cases hx : isJsSpace x = true
    · cases b with
      | true =>
        rw [cwAux_cons_ws_true hx] at hc
        exact ih c hc hws
      | false =>
        rw [cwAux_cons_ws_false hx] at hc
        rcases List.mem_cons.mp hc with h1 | h1
        · exact h1
        · exact ih c h1 hws
    · rw [cwAux_cons_nonws (by simpa using hx)] at hc
      rcases List.mem_cons.mp hc with h1 | h1
      · rw [h1] at hws; simp [hws] at hx
      · exact ih c h1 hws

/-- Collapsing produces whitespace-normalized text. -/
theorem wsNormed_collapseWs (l : List Char) : WsNormed (collapseWs l) :=
  ⟨ws_eq_space_cwAux, chain_cwAux false l⟩

/-- On text whose next character is not whitespace (or which is empty),
the two scanner modes agree. -/
theorem cwAux_true_eq_false {l : List Char}
    (h : l = [] ∨ ∃ y ys, l = y :: ys ∧ isJsSpace y = false) :
    cwAux true l = cwAux false l := by
  rcases h with h | ⟨y, ys, rfl, hy⟩
  · rw [h]; rfl
  · rw [cwAux_cons_nonws hy, cwAux_cons_nonws hy]

/-- Collapsing fixes whitespace-normalized text. -/
theorem cwAux_fixed {l : List Char} (h : WsNormed l) :
    cwAux false l = l := by
  induction l with
  | nil => rfl
  | cons x rest ih =>
    obtain ⟨hmem, hchain⟩ := h
    have hrest : WsNormed rest :=
      ⟨fun c hc => hmem c (List.mem_cons_of_mem _ hc),
       (List.chain'_cons'.mp hchain).2⟩
    by_cases hx : isJsSpace x = true
    · rw [cwAux_cons_ws_false hx]
      have hx' : x = ' ' := hmem x (List.mem_cons_self _ _) hx
      have hhead : rest = [] ∨ ∃ y ys, rest = y :: ys ∧ isJsSpace y = false := by
        cases rest with
        | nil => exact Or.inl rfl
        | cons y ys =>
          refine Or.inr ⟨y, ys, rfl, ?_⟩
          have := (List.chain'_cons'.mp hchain).1 y (by simp)
          by_contra hy
          exact this ⟨hx, by simpa using hy⟩
      rw [cwAux_true_eq_false hhead, ih hrest, hx']
    · rw [cwAux_cons_nonws (by simpa using hx), ih hrest]

/-! ### Punctuation collapsing: shape lemmas -/

/-- Unfolding: a punctuation character inside a run is dropped. -/
theorem cpAux_cons_p_true {x : Char} {rest : List Char}
    (hx : isNormPunct x = true) : cpAux true (x :: rest) = cpAux true rest := by
  simp [cpAux, hx]

/-- Unfolding: a punctuation character opening a run becomes a dot. -/
theorem cpAux_cons_p_false {x : Char} {rest : List Char}
    (hx : isNormPunct x = true) :
    cpAux false (x :: rest) = '.' :: cpAux true rest := by
  simp [cpAux, hx]

/-- Unfolding: a non-punctuation character is kept and ends any run. -/
theorem cpAux_cons_nonp {b : Bool} {x : Char} {rest : List Char}
    (hx : isNormPunct x = false) :
    cpAux b (x :: rest) = x :: cpAux false rest := by
  cases b <;> simp [cpAux, hx]

/-- Every character of the punctuation-collapsed text is a character of
the input or a dot. -/
theorem mem_cpAux {b : Bool} {l : List Char} {c : Char}
    (h : c ∈ cpAux b l) : c ∈ l ∨ c = '.' := by
  induction l generalizing b with
  | nil => simp [cpAux] at h
  | cons x rest ih =>
    by_cases hx : isNormPunct x = true
    · cases b with
      | true =>
        rw [cpAux_cons_p_true hx] at h
        rcases ih h with h1 | h1
        · exact Or.inl (List.mem_cons_of_mem _ h1)
        · exact Or.inr h1
      | false =>
        rw [cpAux_cons_p_false hx] at h
        rcases List.mem_cons.mp h with h1 | h1
        · exact Or.inr h1
        · rcases ih h1 with h2 | h2
          · exact Or.inl (List.mem_cons_of_mem _ h2)
          · exact Or.inr h2
    · rw [cpAux_cons_nonp (by simpa using hx)] at h
      rcases List.mem_cons.mp h with h1 | h1
      · exact Or.inl (h1 ▸ List.mem_cons_self _ _)
      · rcases ih h1 with h2 | h2
        · exact Or.inl (List.mem_cons_of_mem _ h2)
        · exact Or.inr h2

/-- The head of the remainder of a punctuation run being collapsed is
never punctuation. -/
theorem cpAux_true_head {l : List Char} {y : Char} {ys : List Char}
    (h : cpAux true l = y :: ys) : isNormPunct y = false := by
  induction l with
  | nil => simp [cpAux] at h
  | cons x rest ih =>
    by_cases hx : isNormPunct x = true
    · rw [cpAux_cons_p_true hx] at h
      exact ih h
    · rw [cpAux_cons_nonp (by simpa using hx)] at h
      cases h
      simpa using hx

/-- The head of the punctuation-collapsed text is a dot or the input
head. -/
theorem cpAux_false_head {l : List Char} {y : Char} {ys : List Char}
    (h : cpAux false l = y :: ys) :
    y = '.' ∨ ∃ t, l = y :: t := by
  cases l with
  | nil => simp [cpAux] at h
  | cons x rest =>
    by_cases hx : isNormPunct x = true
    · rw [cpAux_cons_p_false hx] at h
      cases h
      exact Or.inl rfl
    · rw [cpAux_cons_nonp (by simpa using hx)] at h
      cases h
      exact Or.inr ⟨rest, rfl⟩

/-- Punctuation-collapsed text never has two adjacent punctuation
characters. -/
theorem chain_cpAux (b : Bool) (l : List Char) :
    List.Chain' NoPunctPair (cpAux b l) := by
  induction l generalizing b with
  | nil => simp [cpAux]
  | cons x rest ih =>
    by_cases hx : isNormPunct x = true
    · cases b with
      | true => rw [cpAux_cons_p_true hx]; exact ih true
      | false =>
        rw [cpAux_cons_p_false hx]
        rw [List.chain'_cons']
        refine ⟨?_, ih true⟩
        intro y hy
        cases hcp : cpAux true rest with
        | nil => rw [hcp] at hy; simp at hy
        | cons z zs =>
          rw [hcp] at hy; simp at hy
          subst hy
          have := cpAux_true_head hcp
          intro hpair
          rw [this] at hpair
          exact absurd hpair.2 (by simp)
    · rw [cpAux_cons_nonp (by simpa using hx)]
      rw [List.chain'_cons']
      refine ⟨?_, ih false⟩
      intro y _ hpair
      exact hx hpair.1

/-- Punctuation characters of punctuation-collapsed text are dots. -/
theorem p_eq_dot_cpAux {b : Bool} {l : List Char} :
    ∀ c ∈ cpAux b l, isNormPunct c = true → c = '.' := by
  induction l generalizing b with
  | nil => simp [cpAux]
  | cons x rest ih =>
    intro c hc hp
    by_cases hx : isNormPunct x = true
    · cases b with
      | true =>
        rw [cpAux_cons_p_true hx] at hc
        exact ih c hc hp
      | false =>
        rw [cpAux_cons_p_false hx] at hc
        rcases List.mem_cons.mp hc with h1 | h1
        · exact h1
        · exact ih c h1 hp
    · rw [cpAux_cons_nonp (by simpa using hx)] at hc
      rcases List.mem_cons.mp hc with h1 | h1
      · rw [h1] at hp; simp [hp] at hx
      · exact ih c h1 hp

/-- Collapsing punctuation produces punctuation-normalized text. -/
theorem punctNormed_collapsePunct (l : List Char) :
    PunctNormed (collapsePunct l) :=
  ⟨p_eq_dot_cpAux, chain_cpAux false l⟩

/-- On text whose next character is not punctuation (or which is empty),
the two scanner modes agree. -/
theorem cpAux_true_eq_false {l : List Char}
    (h : l = [] ∨ ∃ y ys, l = y :: ys ∧ isNormPunct y = false) :
    cpAux true l = cpAux false l := by
  rcases h with h | ⟨y, ys, rfl, hy⟩
  · rw [h]; rfl
  · rw [cpAux_cons_nonp hy, cpAux_cons_nonp hy]

/-- Collapsing punctuation fixes punctuation-normalized text. -/
theorem cpAux_fixed {l : List Char} (h : PunctNormed l) :
    cpAux false l = l := by
  induction l with
  | nil => rfl
  | cons x rest ih =>
    obtain ⟨hmem, hchain⟩ := h
    have hrest : PunctNormed rest :=
      ⟨fun c hc => hmem c (List.mem_cons_of_mem _ hc),
       (List.chain'_cons'.mp hchain).2⟩
    by_cases hx : isNormPunct x = true
    · rw [cpAux_cons_p_false hx]
      have hx' : x = '.' := hmem x (List.mem_cons_self _ _) hx
      have hhead : rest = [] ∨ ∃ y ys, rest = y :: ys ∧ isNormPunct y = false := by
        cases rest with
        | nil => exact Or.inl rfl
        | cons y ys =>
          refine Or.inr ⟨y, ys, rfl, ?_⟩
          have := (List.chain'_cons'.mp hchain).1 y (by simp)
          by_contra hy
          exact this ⟨hx, by simpa using hy⟩
      rw [cpAux_true_eq_false hhead, ih hrest, hx']
    · rw [cpAux_cons_nonp (by simpa using hx), ih hrest]

/-! ### Trimming: shape lemmas -/

/-- The head of left-trimmed text is not whitespace. -/
theorem trimLeft_head : ∀ {l : List Char} {y : Char} {ys : List Char},
    trimLeft l = y :: ys → isJsSpace y = false := by
  intro l
  induction l with
  | nil => intro y ys h; simp [trimLeft] at h
  | cons c rest ih =>
    intro y ys h
    by_cases hc : isJsSpace c = true
    · rw [show trimLeft (c :: rest) = trimLeft rest by
        simp [trimLeft, List.dropWhile_cons, hc]] at h
      exact ih h
    · rw [show trimLeft (c :: rest) = c :: rest by
        simp [trimLeft, List.dropWhile_cons, hc]] at h
      cases h
      simpa using hc

/-- Left trimming is idempotent. -/
theorem trimLeft_idem (l : List Char) : trimLeft (trimLeft l) = trimLeft l := by
  cases h : trimLeft l with
  | nil => rfl
  | cons y ys =>
    have hy := trimLeft_head h
    simp [trimLeft, List.dropWhile_cons, hy]

/-- A chain condition survives dropping a whitespace run at the front. -/
theorem chain_dropWhile {α : Type} {R : α → α → Prop} {l : List α}
    (p : α → Bool) (h : List.Chain' R l) : List.Chain' R (l.dropWhile p) := by
  rw [← List.takeWhile_append_dropWhile p l] at h
  exact (List.chain'_append.mp h).2.1

/-- Right-trimmed text is empty or keeps the original head. -/
theorem trimRight_shape (c : Char) (rest : List Char) :
    trimRight (c :: rest) = [] ∨ ∃ r, trimRight (c :: rest) = c :: r := by
  cases hr : trimRight rest with
  | nil =>
    by_cases hc : isJsSpace c = true
    · exact Or.inl (by simp [trimRight, hr, hc])
    · exact Or.inr ⟨[], by simp [trimRight, hr, hc]⟩
  | cons y ys => exact Or.inr ⟨y :: ys, by simp [trimRight, hr]⟩

/-- Right trimming gives a sublist. -/
theorem trimRight_sublist : ∀ l : List Char, trimRight l <+ l := by
  intro l
  induction l with
  | nil => exact List.Sublist.refl []
  | cons c rest ih =>
    cases hr : trimRight rest with
    | nil =>
      by_cases hc : isJsSpace c = true
      · simp [trimRight, hr, hc]
      · simp only [trimRight, hr]
        rw [if_neg (by simpa using hc)]
        exact List.cons_sublist_cons.mpr (List.nil_sublist rest)
    | cons y ys =>
      simp only [trimRight, hr]
      exact List.cons_sublist_cons.mpr (hr ▸ ih)

/-- The removed trailing part is all whitespace. -/
theorem trimRight_append_ws :
    ∀ l : List Char, ∃ s, l = trimRight l ++ s ∧ ∀ c ∈ s, isJsSpace c = true := by
  intro l
  induction l with
  | nil => exact ⟨[], rfl, by simp⟩
  | cons c rest ih =>
    obtain ⟨s, hs, hws⟩ := ih
    cases hr : trimRight rest with
    | nil =>
      rw [hr] at hs
      simp only [List.nil_append] at hs
      by_cases hc : isJsSpace c = true
      · refine ⟨c :: rest, ?_, ?_⟩
        · simp [trimRight, hr, hc]
        · intro d hd
          rcases List.mem_cons.mp hd with h1 | h1
          · rw [h1]; exact hc
          · exact hws d (hs ▸ h1)
      · refine ⟨rest, ?_, fun d hd => hws d (hs ▸ hd)⟩
        simp only [trimRight, hr]
        rw [if_neg (by simpa using hc)]
        rfl
    | cons y ys =>
      refine ⟨s, ?_, hws⟩
      simp only [trimRight, hr]
      rw [hr] at hs
      rw [show (c :: (y :: ys)) ++ s = c :: ((y :: ys) ++ s) from rfl, ← hs]

/-- Unfolding: right trimming keeps the head when the trimmed tail is
nonempty. -/
theorem trimRight_cons_nonempty {rest : List Char} {y : Char} {ys : List Char}
    (h : trimRight rest = y :: ys) (c : Char) :
    trimRight (c :: rest) = c :: y :: ys := by
  simp [trimRight, h]

/-- Right trimming is idempotent. -/
theorem trimRight_idem : ∀ l : List Char, trimRight (trimRight l) = trimRight l := by
  intro l
  induction l with
  | nil => rfl
  | cons c rest ih =>
    cases hr : trimRight rest with
    | nil =>
      by_cases hc : isJsSpace c = true
      · simp [trimRight, hr, hc]
      · simp [trimRight, hr, hc]
    | cons y ys =>
      rw [hr] at ih
      rw [trimRight_cons_nonempty hr, trimRight_cons_nonempty ih]

/-- Nonempty right-trimmed text keeps the original head. -/
theorem trimRight_head {l : List Char} {y : Char} {ys : List Char}
    (h : trimRight l = y :: ys) : ∃ t, l = y :: t := by
  cases l with
  | nil => simp [trimRight] at h
  | cons c rest =>
    rcases trimRight_shape c rest with hsh | ⟨r, hsh⟩
    · rw [hsh] at h; cases h
    · rw [hsh] at h
      cases h
      exact ⟨rest, rfl⟩

/-- A chain condition survives right trimming. -/
theorem chain_trimRight {R : Char → Char → Prop} :
    ∀ {l : List Char}, List.Chain' R l → List.Chain' R (trimRight l) := by
  intro l
  induction l with
  | nil => intro h; exact h
  | cons c rest ih =>
    intro h
    have hh := List.chain'_cons'.mp h
    cases hr : trimRight rest with
    | nil =>
      by_cases hc : isJsSpace c = true
      · simp [trimRight, hr, hc]
      · simp [trimRight, hr, hc]
    | cons y ys =>
      simp only [trimRight, hr]
      rw [List.chain'_cons']
      constructor
      · intro z hz
        simp only [List.head?_cons, Option.mem_def, Option.some.injEq] at hz
        subst hz
        obtain ⟨t, ht⟩ := trimRight_head hr
        exact hh.1 _ (by rw [ht]; rfl)
      · exact hr ▸ ih hh.2

/-- The whole trim gives a sublist. -/
theorem jsTrim_sublist (l : List Char) : jsTrim l <+ l :=
  (trimRight_sublist _).trans (List.dropWhile_sublist _)

/-- A chain condition survives trimming. -/
theorem chain_jsTrim {R : Char → Char → Prop} {l : List Char}
    (h : List.Chain' R l) : List.Chain' R (jsTrim l) :=
  chain_trimRight (chain_dropWhile _ h)

/-- Whitespace normalization survives trimming. -/
theorem wsNormed_jsTrim {l : List Char} (h : WsNormed l) : WsNormed (jsTrim l) :=
  ⟨fun c hc => h.1 c ((jsTrim_sublist l).subset hc), chain_jsTrim h.2⟩

/-- Punctuation normalization survives trimming. -/
theorem punctNormed_jsTrim {l : List Char} (h : PunctNormed l) :
    PunctNormed (jsTrim l) :=
  ⟨fun c hc => h.1 c ((jsTrim_sublist l).subset hc), chain_jsTrim h.2⟩

/-- Trimming is idempotent. -/
theorem jsTrim_idem (l : List Char) : jsTrim (jsTrim l) = jsTrim l := by
  have h1 : trimLeft (jsTrim l) = jsTrim l := by
    cases h : jsTrim l with
    | nil => rfl
    | cons y ys =>
      obtain ⟨t, ht⟩ := trimRight_head h
      have hy : isJsSpace y = false := trimLeft_head ht
      simp [trimLeft, List.dropWhile_cons, hy]
  show trimRight (trimLeft (jsTrim l)) = jsTrim l
  rw [h1]
  exact trimRight_idem _

/-! ### Lowercasing lemmas -/

/-- Basic Latin lowercasing leaves no uppercase letters. -/
theorem noUpper_map_toLower (l : List Char) : NoUpper (l.map Char.toLower) := by
  intro c hc
  obtain ⟨a, _, rfl⟩ := List.mem_map.mp hc
  exact not_upper_toLower a

/-- Text without uppercase letters is fixed by lowercasing. -/
theorem map_toLower_fixed {l : List Char} (h : NoUpper l) :
    l.map Char.toLower = l := by
  induction l with
  | nil => rfl
  | cons c rest ih =>
    rw [List.map_cons, toLower_of_not_upper (h c (List.mem_cons_self _ _)),
      ih fun d hd => h d (List.mem_cons_of_mem _ hd)]

/-- Absence of uppercase letters survives whitespace collapsing. -/
theorem noUpper_cwAux {b : Bool} {l : List Char} (h : NoUpper l) :
    NoUpper (cwAux b l) := by
  intro c hc
  rcases mem_cwAux hc with h1 | h1
  · exact h c h1
  · rw [h1]; decide

/-- Absence of uppercase letters survives punctuation collapsing. -/
theorem noUpper_cpAux {b : Bool} {l : List Char} (h : NoUpper l) :
    NoUpper (cpAux b l) := by
  intro c hc
  rcases mem_cpAux hc with h1 | h1
  · exact h c h1
  · rw [h1]; decide

/-- Absence of uppercase letters survives trimming. -/
theorem noUpper_jsTrim {l : List Char} (h : NoUpper l) : NoUpper (jsTrim l) :=
  fun c hc => h c ((jsTrim_sublist l).subset hc)

/-! ### Punctuation collapsing preserves whitespace normalization -/

/-- Punctuation collapsing never puts two whitespace characters next to
each other when the input has none. -/
theorem chainWs_cpAux {l : List Char} (h : List.Chain' NoWsPair l) :
    List.Chain' NoWsPair (cpAux false l) ∧ List.Chain' NoWsPair (cpAux true l) := by
  induction l with
  | nil => exact ⟨List.chain'_nil, List.chain'_nil⟩
  | cons x rest ih =>
    have hh := List.chain'_cons'.mp h
    obtain ⟨ihf, iht⟩ := ih hh.2
    have hkeep : List.Chain' NoWsPair (x :: cpAux false rest) := by
      rw [List.chain'_cons']
      refine ⟨?_, ihf⟩
      intro y hy
      cases hcp : cpAux false rest with
      | nil => rw [hcp] at hy; simp at hy
      | cons z zs =>
        rw [hcp] at hy
        simp only [List.head?_cons, Option.mem_def, Option.some.injEq] at hy
        subst hy
        rcases cpAux_false_head hcp with h1 | ⟨t, ht⟩
        · rw [h1]; intro hpair; exact absurd hpair.2 (by decide)
        · exact hh.1 _ (by rw [ht]; rfl)
    by_cases hx : isNormPunct x = true
    · constructor
      · rw [cpAux_cons_p_false hx]
        rw [List.chain'_cons']
        refine ⟨?_, iht⟩
        intro y _
        intro hpair
        exact absurd hpair.1 (by decide)
      · rw [cpAux_cons_p_true hx]
        exact iht
    · constructor
      · rw [cpAux_cons_nonp (by simpa using hx)]
        exact hkeep
      · rw [cpAux_cons_nonp (by simpa using hx)]
        exact hkeep

/-- Whitespace normalization survives punctuation collapsing. -/
theorem wsNormed_cpAux {l : List Char} (h : WsNormed l) :
    WsNormed (cpAux false l) := by
  refine ⟨?_, (chainWs_cpAux h.2).1⟩
  intro c hc hws
  rcases mem_cpAux hc with h1 | h1
  · exact h.1 c h1 hws
  · rw [h1] at hws; exact absurd hws (by decide)

/-! ### Idempotence of normalizeText -/

/-- One application of normalizeText yields text that is lowercase,
whitespace-normalized and punctuation-normalized. -/
theorem normalizeTextL_shape (l : List Char) :
    NoUpper (normalizeTextL l) ∧ WsNormed (normalizeTextL l) ∧
      PunctNormed (normalizeTextL l) := by
  refine ⟨?_, ?_, ?_⟩
  · exact noUpper_jsTrim (noUpper_cpAux (noUpper_cwAux (noUpper_map_toLower l)))
  · exact wsNormed_jsTrim (wsNormed_cpAux (wsNormed_collapseWs _))
  · exact punctNormed_jsTrim (punctNormed_collapsePunct _)

/-- normalizeText reaches a fixed point after one application
(list form). -/
theorem normalizeTextL_idem (l : List Char) :
    normalizeTextL (normalizeTextL l) = normalizeTextL l := by
  obtain ⟨hup, hws, hp⟩ := normalizeTextL_shape l
  show jsTrim (collapsePunct (collapseWs ((normalizeTextL l).map Char.toLower))) =
    normalizeTextL l
  rw [map_toLower_fixed hup]
  show jsTrim (cpAux false (cwAux false (normalizeTextL l))) = normalizeTextL l
  rw [cwAux_fixed hws, cpAux_fixed hp]
  exact jsTrim_idem _

/-- Claim C10: normalizeText is idempotent — one application of
lower-casing, whitespace collapsing, punctuation collapsing and
trimming reaches a fixed point. -/
theorem c10_normalizeText_idem (t : String) :
    normalizeText (normalizeText t) = normalizeText t := by
  show String.mk (normalizeTextL (String.mk (normalizeTextL t.data)).data) =
    String.mk (normalizeTextL t.data)
  rw [show (String.mk (normalizeTextL t.data)).data = normalizeTextL t.data from rfl,
    normalizeTextL_idem]

/-! ### URL scanning lemmas -/

/-- The two shapes of a URL match start. -/
theorem urlStart_cases {l : List Char} (h : urlStart l = true) :
    (∃ d t, l = 'h' :: 't' :: 't' :: 'p' :: 's' :: ':' :: '/' :: '/' :: d :: t ∧
      isJsSpace d = false) ∨
    (∃ d t, l = 'h' :: 't' :: 't' :: 'p' :: ':' :: '/' :: '/' :: d :: t ∧
      isJsSpace d = false) := by
  unfold urlStart at h
  split at h
  · exact Or.inl ⟨_, _, rfl, by simpa using h⟩
  · exact Or.inr ⟨_, _, rfl, by simpa using h⟩
  · exact absurd h (by simp)

/-- Building a URL match start, https shape. -/
theorem urlStart_https {d : Char} {t : List Char} (h : isJsSpace d = false) :
    urlStart ('h' :: 't' :: 't' :: 'p' :: 's' :: ':' :: '/' :: '/' :: d :: t) =
      true := by
  simp [urlStart, h]

/-- Building a URL match start, http shape. -/
theorem urlStart_http {d : Char} {t : List Char} (h : isJsSpace d = false) :
    urlStart ('h' :: 't' :: 't' :: 'p' :: ':' :: '/' :: '/' :: d :: t) = true := by
  simp [urlStart, h]

/-- No URL match starts at a whitespace character. -/
theorem urlStart_ws_head {c : Char} {rest : List Char}
    (hc : isJsSpace c = true) : urlStart (c :: rest) = false := by
  by_contra h
  rcases urlStart_cases (by simpa using h) with ⟨d, t, heq, _⟩ | ⟨d, t, heq, _⟩ <;>
  · cases heq
    exact absurd hc (by decide)

/-- A URL match start survives appending to the right. -/
theorem urlStart_append {v w : List Char} (h : urlStart v = true) :
    urlStart (v ++ w) = true := by
  rcases urlStart_cases h with ⟨d, t, rfl, hd⟩ | ⟨d, t, rfl, hd⟩
  · exact urlStart_https hd
  · exact urlStart_http hd

/-- Unfolding for the URL search. -/
theorem hasUrl_cons (c : Char) (rest : List Char) :
    hasUrl (c :: rest) = (urlStart (c :: rest) || hasUrl rest) := rfl

/-- A URL somewhere in the left part is a URL in the whole. -/
theorem hasUrl_append_left {v : List Char} (w : List Char)
    (h : hasUrl v = true) : hasUrl (v ++ w) = true := by
  induction v with
  | nil => simp [hasUrl] at h
  | cons c rest ih =>
    rw [hasUrl_cons] at h
    rw [List.cons_append, hasUrl_cons]
    rcases Bool.or_eq_true .. |>.mp h with h1 | h1
    · have h2 : urlStart ((c :: rest) ++ w) = true := urlStart_append h1
      rw [List.cons_append] at h2
      rw [h2]
      rfl
    · rw [ih h1]
      simp

/-- A URL somewhere in the right part is a URL in the whole. -/
theorem hasUrl_append_right (v : List Char) {w : List Char}
    (h : hasUrl w = true) : hasUrl (v ++ w) = true := by
  induction v with
  | nil => exact h
  | cons c rest ih =>
    rw [List.cons_append, hasUrl_cons, ih]
    simp

/-! ### Tag removal lemmas -/

/-- Bracket containment as list membership. -/
theorem contains_gt_iff {rest : List Char} :
    rest.contains '>' = true ↔ '>' ∈ rest := List.elem_iff

/-- Unfolding: the closing bracket ends drop mode. -/
theorem rtAux_true_gt {rest : List Char} :
    rtAux true ('>' :: rest) = rtAux false rest := by
  simp [rtAux]

/-- Unfolding: other characters are dropped in drop mode. -/
theorem rtAux_true_ngt {c : Char} {rest : List Char} (hc : ¬ c = '>') :
    rtAux true (c :: rest) = rtAux true rest := by
  simp only [rtAux]
  rw [if_neg hc]

/-- Unfolding: an opening bracket with a later closing bracket starts a
dropped match. -/
theorem rtAux_false_tag {c : Char} {rest : List Char}
    (hc : c = '<' ∧ rest.contains '>' = true) :
    rtAux false (c :: rest) = rtAux true rest := by
  simp only [rtAux]
  rw [if_pos hc]

/-- Unfolding: any other character is kept. -/
theorem rtAux_false_keep {c : Char} {rest : List Char}
    (hc : ¬ (c = '<' ∧ rest.contains '>' = true)) :
    rtAux false (c :: rest) = c :: rtAux false rest := by
  simp only [rtAux]
  rw [if_neg hc]

/-- Tag removal yields a sublist. -/
theorem rtAux_sublist : ∀ (b : Bool) (l : List Char), rtAux b l <+ l := by
  intro b l
  induction l generalizing b with
  | nil => cases b <;> exact List.Sublist.refl _
  | cons c rest ih =>
    cases b with
    | true =>
      by_cases hc : c = '>'
      · subst hc
        rw [rtAux_true_gt]
        exact (ih false).cons _
      · rw [rtAux_true_ngt hc]
        exact (ih true).cons c
    | false =>
      by_cases hc : c = '<' ∧ rest.contains '>' = true
      · rw [rtAux_false_tag hc]
        exact (ih true).cons c
      · rw [rtAux_false_keep hc]
        exact List.cons_sublist_cons.mpr (ih false)

/-- No opening bracket with a later closing bracket survives tag
removal: the output never contains < before >. -/
theorem tagFree_rtAux : ∀ (b : Bool) (l : List Char),
    ¬ (['<', '>'] <+ rtAux b l) := by
  intro b l
  induction l generalizing b with
  | nil =>
    cases b <;> · intro h; exact absurd (List.sublist_nil.mp h) (by simp)
  | cons c rest ih =>
    cases b with
    | true =>
      by_cases hc : c = '>'
      · subst hc
        rw [rtAux_true_gt]
        exact ih false
      · rw [rtAux_true_ngt hc]
        exact ih true
    | false =>
      by_cases hc : c = '<' ∧ rest.contains '>' = true
      · rw [rtAux_false_tag hc]
        exact ih true
      · rw [rtAux_false_keep hc]
        intro h
        rcases List.sublist_cons_iff.mp h with h1 | ⟨r, hr, h1⟩
        · exact ih false h1
        · cases hr
          have hmem : '>' ∈ rtAux false rest :=
            List.singleton_sublist.mp h1
          have : '>' ∈ rest := (rtAux_sublist false rest).subset hmem
          exact hc ⟨rfl, contains_gt_iff.mpr this⟩

/-- Tag removal fixes text with no tag pattern. -/
theorem rtAux_fixed {l : List Char} (h : ¬ (['<', '>'] <+ l)) :
    rtAux false l = l := by
  induction l with
  | nil => rfl
  | cons c rest ih =>
    by_cases hc : c = '<' ∧ rest.contains '>' = true
    · exfalso
      apply h
      cases hc.1
      exact List.cons_sublist_cons.mpr
        (List.singleton_sublist.mpr (contains_gt_iff.mp hc.2))
    · rw [rtAux_false_keep hc, ih fun hsub => h (hsub.cons c)]

/-! ### URL removal lemmas -/

/-- Unfolding: in drop mode, whitespace ends the match and is kept. -/
theorem ruAux_true_ws {c : Char} {rest : List Char} (hc : isJsSpace c = true) :
    ruAux true (c :: rest) = c :: ruAux false rest := by
  simp only [ruAux]
  rw [if_pos hc]

/-- Unfolding: in drop mode, non-whitespace is dropped. -/
theorem ruAux_true_nonws {c : Char} {rest : List Char}
    (hc : isJsSpace c = false) : ruAux true (c :: rest) = ruAux true rest := by
  simp only [ruAux]
  rw [if_neg (by simp [hc])]

/-- Unfolding: a URL match start enters drop mode. -/
theorem ruAux_false_url {c : Char} {rest : List Char}
    (hc : urlStart (c :: rest) = true) :
    ruAux false (c :: rest) = ruAux true rest := by
  simp only [ruAux]
  rw [if_pos hc]

/-- Unfolding: any other character is kept. -/
theorem ruAux_false_keep {c : Char} {rest : List Char}
    (hc : urlStart (c :: rest) = false) :
    ruAux false (c :: rest) = c :: ruAux false rest := by
  simp only [ruAux]
  rw [if_neg (by simp [hc])]

/-- URL removal yields a sublist. -/
theorem ruAux_sublist : ∀ (b : Bool) (l : List Char), ruAux b l <+ l := by
  intro b l
  induction l generalizing b with
  | nil => cases b <;> exact List.Sublist.refl _
  | cons c rest ih =>
    cases b with
    | true =>
      by_cases hc : isJsSpace c = true
      · rw [ruAux_true_ws hc]
        exact List.cons_sublist_cons.mpr (ih false)
      · rw [ruAux_true_nonws (by simpa using hc)]
        exact (ih true).cons c
    | false =>
      by_cases hc : urlStart (c :: rest) = true
      · rw [ruAux_false_url hc]
        exact (ih true).cons c
      · rw [ruAux_false_keep (by simpa using hc)]
        exact List.cons_sublist_cons.mpr (ih false)

/-- The head of the remainder of a URL being dropped is whitespace. -/
theorem ruAux_true_head {l : List Char} {y : Char} {ys : List Char}
    (h : ruAux true l = y :: ys) : isJsSpace y = true := by
  induction l with
  | nil => simp [ruAux] at h
  | cons c rest ih =>
    by_cases hc : isJsSpace c = true
    · rw [ruAux_true_ws hc] at h
      cases h
      exact hc
    · rw [ruAux_true_nonws (by simpa using hc)] at h
      exact ih h

/-- Inversion: a non-whitespace head of the URL-removed text is the
input head. -/
theorem ruAux_false_inv {l : List Char} {y : Char} {ys : List Char}
    (hy : isJsSpace y = false) (h : ruAux false l = y :: ys) :
    ∃ t, l = y :: t ∧ ruAux false t = ys := by
  cases l with
  | nil => simp [ruAux] at h
  | cons c rest =>
    by_cases hc : urlStart (c :: rest) = true
    · rw [ruAux_false_url hc] at h
      exact absurd (ruAux_true_head h) (by simp [hy])
    · rw [ruAux_false_keep (by simpa using hc)] at h
      cases h
      exact ⟨rest, rfl, rfl⟩

/-- Peeling a non-whitespace pattern off the URL-removed text peels it
off the input. -/
theorem ruAux_leads : ∀ (pat : List Char),
    (∀ c ∈ pat, isJsSpace c = false) →
    ∀ {l ys : List Char}, ruAux false l = pat ++ ys →
    ∃ zs, l = pat ++ zs ∧ ruAux false zs = ys := by
  intro pat
  induction pat with
  | nil =>
    intro _ l ys h
    exact ⟨l, rfl, h⟩
  | cons p ps ih =>
    intro hp l ys h
    rw [List.cons_append] at h
    obtain ⟨t, rfl, ht⟩ := ruAux_false_inv (hp p (List.mem_cons_self _ _)) h
    obtain ⟨zs, rfl, hzs⟩ := ih (fun c hc => hp c (List.mem_cons_of_mem _ hc)) ht
    exact ⟨zs, rfl, hzs⟩

/-- After URL removal no URL match remains. -/
theorem hasUrl_ruAux : ∀ l : List Char,
    hasUrl (ruAux false l) = false ∧ hasUrl (ruAux true l) = false := by
  intro l
  induction l with
  | nil => exact ⟨rfl, rfl⟩
  | cons c rest ih =>
    have keep : hasUrl (c :: ruAux false rest) = true →
        urlStart (c :: rest) = false → False := by
      intro h hno
      rw [hasUrl_cons] at h
      rcases Bool.or_eq_true .. |>.mp h with h1 | h1
      · rcases urlStart_cases h1 with ⟨d, t, heq, hd⟩ | ⟨d, t, heq, hd⟩
        · have hc : c = 'h' := by injection heq
          have htail : ruAux false rest =
              ['t', 't', 'p', 's', ':', '/', '/'] ++ (d :: t) := by
            injection heq
          obtain ⟨zs, hrest, hzs⟩ := ruAux_leads _ (by decide) htail
          obtain ⟨zs2, hzz, _⟩ := ruAux_false_inv hd hzs
          rw [hzz] at hrest
          rw [hc, hrest] at hno
          rw [show (['t', 't', 'p', 's', ':', '/', '/'] ++ (d :: zs2)) =
            't' :: 't' :: 'p' :: 's' :: ':' :: '/' :: '/' :: d :: zs2 from rfl]
            at hno
          rw [urlStart_https hd] at hno
          exact absurd hno (by simp)
        · have hc : c = 'h' := by injection heq
          have htail : ruAux false rest =
              ['t', 't', 'p', ':', '/', '/'] ++ (d :: t) := by
            injection heq
          obtain ⟨zs, hrest, hzs⟩ := ruAux_leads _ (by decide) htail
          obtain ⟨zs2, hzz, _⟩ := ruAux_false_inv hd hzs
          rw [hzz] at hrest
          rw [hc, hrest] at hno
          rw [show (['t', 't', 'p', ':', '/', '/'] ++ (d :: zs2)) =
            't' :: 't' :: 'p' :: ':' :: '/' :: '/' :: d :: zs2 from rfl] at hno
          rw [urlStart_http hd] at hno
          exact absurd hno (by simp)
      · rw [ih.1] at h1
        exact absurd h1 (by simp)
    constructor
    · by_cases hc : urlStart (c :: rest) = true
      · rw [ruAux_false_url hc]
        exact ih.2
      · rw [ruAux_false_keep (by simpa using hc)]
        by_contra h
        exact keep (by simpa using h) (by simpa using hc)
    · by_cases hc : isJsSpace c = true
      · rw [ruAux_true_ws hc]
        by_contra h
        exact keep (by simpa using h) (urlStart_ws_head hc)
      · rw [ruAux_true_nonws (by simpa using hc)]
        exact ih.2

/-- URL removal fixes text with no URL match. -/
theorem ruAux_fixed {l : List Char} (h : hasUrl l = false) :
    ruAux false l = l := by
  induction l with
  | nil => rfl
  | cons c rest ih =>
    rw [hasUrl_cons] at h
    have h1 : urlStart (c :: rest) = false := (Bool.or_eq_false_iff.mp h).1
    have h2 : hasUrl rest = false := (Bool.or_eq_false_iff.mp h).2
    rw [ruAux_false_keep h1, ih h2]

/-! ### Whitespace collapsing preserves absence of tags and URLs -/

/-- Inversion: a non-whitespace head of the collapsed text is the input
head. -/
theorem cwAux_false_inv {l : List Char} {y : Char} {ys : List Char}
    (hy : isJsSpace y = false) (h : cwAux false l = y :: ys) :
    ∃ t, l = y :: t ∧ cwAux false t = ys := by
  cases l with
  | nil => simp [cwAux] at h
  | cons c rest =>
    by_cases hc : isJsSpace c = true
    · rw [cwAux_cons_ws_false hc] at h
      cases h
      exact absurd hy (by decide)
    · rw [cwAux_cons_nonws (by simpa using hc)] at h
      cases h
      exact ⟨rest, rfl, rfl⟩

/-- Peeling a non-whitespace pattern off the collapsed text peels it
off the input. -/
theorem cwAux_leads : ∀ (pat : List Char),
    (∀ c ∈ pat, isJsSpace c = false) →
    ∀ {l ys : List Char}, cwAux false l = pat ++ ys →
    ∃ zs, l = pat ++ zs ∧ cwAux false zs = ys := by
  intro pat
  induction pat with
  | nil =>
    intro _ l ys h
    exact ⟨l, rfl, h⟩
  | cons p ps ih =>
    intro hp l ys h
    rw [List.cons_append] at h
    obtain ⟨t, rfl, ht⟩ := cwAux_false_inv (hp p (List.mem_cons_self _ _)) h
    obtain ⟨zs, rfl, hzs⟩ := ih (fun c hc => hp c (List.mem_cons_of_mem _ hc)) ht
    exact ⟨zs, rfl, hzs⟩

/-- A pattern of non-whitespace characters occurring (as a subsequence)
in the collapsed text occurs in the input. -/
theorem sublist_cwAux : ∀ (pat : List Char),
    (∀ c ∈ pat, isJsSpace c = false) →
    ∀ {b : Bool} {l : List Char}, pat <+ cwAux b l → pat <+ l := by
  intro pat hp b l
  induction l generalizing pat b with
  | nil =>
    intro h
    cases b <;> exact h
  | cons c rest ih =>
    intro h
    by_cases hc : isJsSpace c = true
    · cases b with
      | true =>
        rw [cwAux_cons_ws_true hc] at h
        exact (ih pat hp h).cons c
      | false =>
        rw [cwAux_cons_ws_false hc] at h
        rcases List.sublist_cons_iff.mp h with h1 | ⟨r, hr, h1⟩
        · exact (ih pat hp h1).cons c
        · exfalso
          have : ' ' ∈ pat := by rw [hr]; exact List.mem_cons_self _ _
          exact absurd (hp ' ' this) (by decide)
    · rw [cwAux_cons_nonws (by simpa using hc)] at h
      rcases List.sublist_cons_iff.mp h with h1 | ⟨r, hr, h1⟩
      · exact (ih pat hp h1).cons c
      · subst hr
        exact List.cons_sublist_cons.mpr
          (ih r (fun d hd => hp d (List.mem_cons_of_mem _ hd)) h1)

/-- Whitespace collapsing cannot create a URL match. -/
theorem hasUrl_cwAux : ∀ {b : Bool} {l : List Char},
    hasUrl (cwAux b l) = true → hasUrl l = true := by
  intro b l
  induction l generalizing b with
  | nil =>
    intro h
    cases b <;> simp [cwAux, hasUrl] at h
  | cons c rest ih =>
    intro h
    by_cases hc : isJsSpace c = true
    · have hrest : hasUrl (cwAux true rest) = true → hasUrl rest = true := ih
      have step : hasUrl rest = true → hasUrl (c :: rest) = true := by
        intro hr
        rw [hasUrl_cons, hr]
        simp
      cases b with
      | true =>
        rw [cwAux_cons_ws_true hc] at h
        exact step (ih h)
      | false =>
        rw [cwAux_cons_ws_false hc] at h
        rw [hasUrl_cons, urlStart_ws_head (by decide)] at h
        exact step (ih (by simpa using h))
    · rw [cwAux_cons_nonws (by simpa using hc)] at h
      rw [hasUrl_cons] at h
      rcases Bool.or_eq_true .. |>.mp h with h1 | h1
      · rcases urlStart_cases h1 with ⟨d, t, heq, hd⟩ | ⟨d, t, heq, hd⟩
        · have hch : c = 'h' := by injection heq
          have htail : cwAux false rest =
              ['t', 't', 'p', 's', ':', '/', '/'] ++ (d :: t) := by
            injection heq
          obtain ⟨zs, hrest, hzs⟩ := cwAux_leads _ (by decide) htail
          obtain ⟨zs2, hzz, _⟩ := cwAux_false_inv hd hzs
          rw [hzz] at hrest
          rw [hasUrl_cons, hch, hrest]
          rw [show (['t', 't', 'p', 's', ':', '/', '/'] ++ (d :: zs2)) =
            't' :: 't' :: 'p' :: 's' :: ':' :: '/' :: '/' :: d :: zs2 from rfl]
          rw [urlStart_https hd]
          rfl
        · have hch : c = 'h' := by injection heq
          have htail : cwAux false rest =
              ['t', 't', 'p', ':', '/', '/'] ++ (d :: t) := by
            injection heq
          obtain ⟨zs, hrest, hzs⟩ := cwAux_leads _ (by decide) htail
          obtain ⟨zs2, hzz, _⟩ := cwAux_false_inv hd hzs
          rw [hzz] at hrest
          rw [hasUrl_cons, hch, hrest]
          rw [show (['t', 't', 'p', ':', '/', '/'] ++ (d :: zs2)) =
            't' :: 't' :: 'p' :: ':' :: '/' :: '/' :: d :: zs2 from rfl]
          rw [urlStart_http hd]
          rfl
      · rw [hasUrl_cons, ih h1]
        simp

/-! ### Trimming preserves absence of URLs -/

/-- Left trimming cannot create a URL match. -/
theorem hasUrl_trimLeft {l : List Char} (h : hasUrl (trimLeft l) = true) :
    hasUrl l = true := by
  have hsplit := List.takeWhile_append_dropWhile isJsSpace l
  calc hasUrl l = hasUrl (l.takeWhile isJsSpace ++ l.dropWhile isJsSpace) := by
        rw [hsplit]
    _ = true := hasUrl_append_right _ h

/-- Right trimming cannot create a URL match. -/
theorem hasUrl_trimRight {l : List Char} (h : hasUrl (trimRight l) = true) :
    hasUrl l = true := by
  obtain ⟨s, hs, _⟩ := trimRight_append_ws l
  rw [hs]
  exact hasUrl_append_left _ h

/-- Trimming cannot create a URL match. -/
theorem hasUrl_jsTrim {l : List Char} (h : hasUrl (jsTrim l) = true) :
    hasUrl l = true :=
  hasUrl_trimLeft (hasUrl_trimRight h)

/-! ### Idempotence of sanitizeText -/

/-- One application of sanitizeText yields text with no tag pattern, no
URL match, and normalized whitespace. -/
theorem sanitizeTextL_shape (l : List Char) :
    ¬ (['<', '>'] <+ sanitizeTextL l) ∧ hasUrl (sanitizeTextL l) = false ∧
      WsNormed (sanitizeTextL l) := by
  refine ⟨?_, ?_, ?_⟩
  · intro h
    have h1 : ['<', '>'] <+ cwAux false (ruAux false (rtAux false l)) :=
      h.trans (jsTrim_sublist _)
    have h2 := sublist_cwAux ['<', '>'] (by decide) h1
    have h3 : ['<', '>'] <+ rtAux false l := h2.trans (ruAux_sublist false _)
    exact tagFree_rtAux false l h3
  · by_contra h
    have h1 : hasUrl (jsTrim (cwAux false (ruAux false (rtAux false l)))) =
        true := by simpa using h
    have h2 := hasUrl_cwAux (hasUrl_jsTrim h1)
    rw [(hasUrl_ruAux (rtAux false l)).1] at h2
    exact absurd h2 (by simp)
  · exact wsNormed_jsTrim (wsNormed_collapseWs _)

/-- sanitizeText reaches a fixed point after one application
(list form). -/
theorem sanitizeTextL_idem (l : List Char) :
    sanitizeTextL (sanitizeTextL l) = sanitizeTextL l := by
  obtain ⟨htag, hurl, hws⟩ := sanitizeTextL_shape l
  show jsTrim (cwAux false (ruAux false (rtAux false (sanitizeTextL l)))) =
    sanitizeTextL l
  rw [rtAux_fixed htag, ruAux_fixed hurl, cwAux_fixed hws]
  exact jsTrim_idem _

/-- Claim C7: sanitizeText is idempotent — applying tag removal, URL
removal, whitespace collapsing and trimming a second time leaves the
result unchanged. -/
theorem c7_sanitizeText_idem (x : String) :
    sanitizeText (sanitizeText x) = sanitizeText x := by
  by_cases hx : x = ""
  · rw [hx]
    rfl
  · rw [show sanitizeText x = String.mk (sanitizeTextL x.data) from
      if_neg hx]
    by_cases hz : String.mk (sanitizeTextL x.data) = ""
    · rw [hz]
      rfl
    · rw [show sanitizeText (String.mk (sanitizeTextL x.data)) =
        String.mk (sanitizeTextL (String.mk (sanitizeTextL x.data)).data) from
        if_neg hz]
      rw [show (String.mk (sanitizeTextL x.data)).data = sanitizeTextL x.data
        from rfl]
      rw [sanitizeTextL_idem]

/-- Claim C4, amended: for every lower-cased alphabetic word of length
greater than 3, countSyllablesInWord first strips a trailing pattern
that is a consonant followed by "es", or "ed", or a consonant followed
by a single trailing "e" — where consonant means any letter that is not
one of l, a, e, i, o, u, y (the source class [^laeiouy], which, unlike
the claim, also excludes l) — before counting vowel runs. -/
theorem c4_amended (w : String) (h1 : 3 < w.length)
    (h2 : ∀ c ∈ w.data, isLowerAlpha c = true) :
    countSyllablesInWord w = specCountSyllables consonantPerCode w := by
  simp only [countSyllablesInWord, specCountSyllables, stripEnding_eq_spec]

/-- Witness for the amended claim C4 at the word "tables": the code and
the amended stripping rule agree there (both count two syllables). -/
theorem c4_witness :
    countSyllablesInWord "tables" = specCountSyllables consonantPerCode "tables" :=
  c4_amended "tables" (by decide) (by decide)

/-! ### Word frequency: permutation and sorting lemmas -/

/-- Descending-count insertion permutes. -/
theorem insertCountDesc_perm (x : String × Nat) :
    ∀ l : List (String × Nat), insertCountDesc x l ~ x :: l := by
  intro l
  induction l with
  | nil => exact List.Perm.refl _
  | cons y ys ih =>
    by_cases h : x.2 < y.2
    · rw [show insertCountDesc x (y :: ys) = y :: insertCountDesc x ys by
        simp [insertCountDesc, h]]
      exact (ih.cons y).trans (List.Perm.swap x y ys)
    · rw [show insertCountDesc x (y :: ys) = x :: y :: ys by
        simp [insertCountDesc, h]]

/-- The descending-count sort permutes. -/
theorem sortCountDesc_perm : ∀ l : List (String × Nat), sortCountDesc l ~ l := by
  intro l
  induction l with
  | nil => exact List.Perm.refl _
  | cons x xs ih =>
    exact (insertCountDesc_perm x (sortCountDesc xs)).trans (ih.cons x)

/-- The ascending-index insertion permutes. -/
theorem insertIdxAsc_perm (x : String × Nat) :
    ∀ l : List (String × Nat), insertIdxAsc x l ~ x :: l := by
  intro l
  induction l with
  | nil => exact List.Perm.refl _
  | cons y ys ih =>
    by_cases h : digitsToNat y.1.data ≤ digitsToNat x.1.data
    · rw [show insertIdxAsc x (y :: ys) = y :: insertIdxAsc x ys by
        simp [insertIdxAsc, h]]
      exact (ih.cons y).trans (List.Perm.swap x y ys)
    · rw [show insertIdxAsc x (y :: ys) = x :: y :: ys by
        simp [insertIdxAsc, h]]

/-- The ascending-index sort permutes. -/
theorem sortIdxAsc_perm : ∀ l : List (String × Nat), sortIdxAsc l ~ l := by
  intro l
  induction l with
  | nil => exact List.Perm.refl _
  | cons x xs ih =>
    exact (insertIdxAsc_perm x (sortIdxAsc xs)).trans (ih.cons x)

/-- Object.entries enumeration permutes the entry list. -/
theorem jsEntries_perm (l : List (String × Nat)) : jsEntries l ~ l :=
  ((sortIdxAsc_perm _).append_right _).trans
    (List.filter_append_perm (fun p => isArrayIndexStr p.1) l)

/-- When no key is an array index, Object.entries enumeration is the
insertion order. -/
theorem jsEntries_id {l : List (String × Nat)}
    (h : ∀ p ∈ l, isArrayIndexStr p.1 = false) : jsEntries l = l := by
  unfold jsEntries
  rw [show l.filter (fun p => isArrayIndexStr p.1) = [] from
    List.filter_eq_nil_iff.mpr (fun p hp => by simp [h p hp]),
    show l.filter (fun p => !isArrayIndexStr p.1) = l from
    List.filter_eq_self.mpr (fun p hp => by simp [h p hp])]
  rfl

/-- The head of a descending-count insertion is the inserted element or
the old head. -/
theorem insertCountDesc_head {x z : String × Nat} {m zs : List (String × Nat)}
    (h : insertCountDesc x m = z :: zs) :
    z = x ∨ ∃ t, m = z :: t := by
  cases m with
  | nil =>
    rw [show insertCountDesc x [] = [x] from rfl] at h
    cases h
    exact Or.inl rfl
  | cons y ys =>
    by_cases hc : x.2 < y.2
    · rw [show insertCountDesc x (y :: ys) = y :: insertCountDesc x ys by
        simp [insertCountDesc, hc]] at h
      cases h
      exact Or.inr ⟨ys, rfl⟩
    · rw [show insertCountDesc x (y :: ys) = x :: y :: ys by
        simp [insertCountDesc, hc]] at h
      cases h
      exact Or.inl rfl

/-- Descending-count insertion preserves the descending chain. -/
theorem chain_insertCountDesc {x : String × Nat} {m : List (String × Nat)}
    (h : List.Chain' (fun a b : String × Nat => b.2 ≤ a.2) m) :
    List.Chain' (fun a b : String × Nat => b.2 ≤ a.2) (insertCountDesc x m) := by
  induction m with
  | nil => simp [insertCountDesc]
  | cons y ys ih =>
    have hh := List.chain'_cons'.mp h
    by_cases hc : x.2 < y.2
    · rw [show insertCountDesc x (y :: ys) = y :: insertCountDesc x ys by
        simp [insertCountDesc, hc]]
      rw [List.chain'_cons']
      refine ⟨?_, ih hh.2⟩
      intro z hz
      cases hins : insertCountDesc x ys with
      | nil => rw [hins] at hz; simp at hz
      | cons w ws =>
        rw [hins] at hz
        simp only [List.head?_cons, Option.mem_def, Option.some.injEq] at hz
        subst hz
        rcases insertCountDesc_head hins with h1 | ⟨t, ht⟩
        · rw [h1]; exact Nat.le_of_lt hc
        · exact hh.1 _ (by rw [ht]; rfl)
    · rw [show insertCountDesc x (y :: ys) = x :: y :: ys by
        simp [insertCountDesc, hc]]
      rw [List.chain'_cons']
      exact ⟨fun z hz => by
        simp only [List.head?_cons, Option.mem_def, Option.some.injEq] at hz
        subst hz
        omega, h⟩

/-- The sorted entry list descends in count. -/
theorem chain_sortCountDesc : ∀ l : List (String × Nat),
    List.Chain' (fun a b : String × Nat => b.2 ≤ a.2) (sortCountDesc l) := by
  intro l
  induction l with
  | nil => simp [sortCountDesc]
  | cons x xs ih => exact chain_insertCountDesc ih

/-- Insertion interacts with filtering on a fixed count. -/
theorem filter_insertCountDesc (c : Nat) (x : String × Nat) :
    ∀ m : List (String × Nat),
    (insertCountDesc x m).filter (fun e => e.2 == c) =
      if x.2 = c then x :: m.filter (fun e => e.2 == c)
      else m.filter (fun e => e.2 == c) := by
  intro m
  induction m with
  | nil =>
    rw [show insertCountDesc x [] = [x] from rfl]
    by_cases hx : x.2 = c <;> simp [List.filter_cons, hx]
  | cons y ys ih =>
    by_cases hc : x.2 < y.2
    · rw [show insertCountDesc x (y :: ys) = y :: insertCountDesc x ys by
        simp [insertCountDesc, hc]]
      by_cases hy : y.2 = c
      · by_cases hx : x.2 = c
        · omega
        · simp [List.filter_cons, hy, hx, ih]
      · simp [List.filter_cons, hy, ih]
    · rw [show insertCountDesc x (y :: ys) = x :: y :: ys by
        simp [insertCountDesc, hc]]
      by_cases hx : x.2 = c <;> simp [List.filter_cons, hx]

/-- The stable sort preserves the subsequence of entries at any fixed
count. -/
theorem filter_sortCountDesc (c : Nat) : ∀ l : List (String × Nat),
    (sortCountDesc l).filter (fun e => e.2 == c) =
      l.filter (fun e => e.2 == c) := by
  intro l
  induction l with
  | nil => rfl
  | cons x xs ih =>
    show (insertCountDesc x (sortCountDesc xs)).filter _ = _
    rw [filter_insertCountDesc c x]
    by_cases hx : x.2 = c
    · simp [List.filter_cons, hx, ih]
    · simp [List.filter_cons, hx, ih]

/-- Two entries of equal count keep their relative order through the
stable sort. -/
theorem stable_pairs {u v : String × Nat} {l : List (String × Nat)}
    (h : [u, v] <+ sortCountDesc l) (hc : u.2 = v.2) : [u, v] <+ l := by
  have hq : [u, v].filter (fun e => e.2 == u.2) = [u, v] := by
    simp [List.filter, hc]
  have h1 : [u, v].filter (fun e => e.2 == u.2) <+
      (sortCountDesc l).filter (fun e => e.2 == u.2) := h.filter _
  rw [hq, filter_sortCountDesc] at h1
  exact h1.trans (List.filter_sublist l)

/-- Two positions of a list give a two-element subsequence. -/
theorem pair_sublist_getD {α : Type} [Inhabited α] :
    ∀ (l : List α) (i j : Nat), i < j → j < l.length →
    [l.getD i default, l.getD j default] <+ l := by
  intro l
  induction l with
  | nil => intro i j _ hj; simp at hj
  | cons x xs ih =>
    intro i j hij hj
    cases i with
    | zero =>
      cases j with
      | zero => omega
      | succ j2 =>
        have hj2 : j2 < xs.length := by simpa using hj
        rw [show (x :: xs).getD 0 default = x from rfl,
          show (x :: xs).getD (j2 + 1) default = xs.getD j2 default from rfl]
        refine List.cons_sublist_cons.mpr (List.singleton_sublist.mpr ?_)
        rw [List.getD_eq_getElem xs default hj2]
        exact List.getElem_mem hj2
    | succ i2 =>
      cases j with
      | zero => omega
      | succ j2 =>
        have hj2 : j2 < xs.length := by simpa using hj
        rw [show (x :: xs).getD (i2 + 1) default = xs.getD i2 default from rfl,
          show (x :: xs).getD (j2 + 1) default = xs.getD j2 default from rfl]
        exact (ih i2 j2 (by omega) hj2).cons x

/-- A two-element subsequence of an append with a singleton. -/
theorem pair_sublist_concat {α : Type} {a b x : α} {t : List α}
    (h : [a, b] <+ t ++ [x]) : [a, b] <+ t ∨ (a ∈ t ∧ b = x) := by
  induction t with
  | nil =>
    have := h.length_le
    simp at this
  | cons y ys ih =>
    rw [List.cons_append] at h
    rcases List.sublist_cons_iff.mp h with h1 | ⟨r, hr, h1⟩
    · rcases ih h1 with h2 | ⟨h2, h3⟩
      · exact Or.inl (h2.cons y)
      · exact Or.inr ⟨List.mem_cons_of_mem _ h2, h3⟩
    · have hya : y = a := by injection hr with h2 _; rw [h2]
      have hrb : r = [b] := by injection hr with _ h2; rw [h2]
      subst hya
      subst hrb
      rcases List.mem_append.mp (List.singleton_sublist.mp h1) with h2 | h2
      · exact Or.inl (List.cons_sublist_cons.mpr (List.singleton_sublist.mpr h2))
      · exact Or.inr ⟨List.mem_cons_self _ _, by simpa using h2⟩

/-! ### Word frequency: the counting accumulator -/

/-- Keys after a bump: unchanged when present, appended when new. -/
theorem bumpWord_keys : ∀ (acc : List (String × Nat)) (w : String),
    (bumpWord acc w).map Prod.fst =
      if w ∈ acc.map Prod.fst then acc.map Prod.fst
      else acc.map Prod.fst ++ [w] := by
  intro acc w
  induction acc with
  | nil => simp [bumpWord]
  | cons q rest ih =>
    obtain ⟨k, c⟩ := q
    by_cases hk : k = w
    · rw [show bumpWord ((k, c) :: rest) w = (k, c + 1) :: rest by
        simp [bumpWord, hk]]
      simp [hk]
    · rw [show bumpWord ((k, c) :: rest) w = (k, c) :: bumpWord rest w by
        simp [bumpWord, hk]]
      by_cases hm : w ∈ rest.map Prod.fst
      · simp [ih, hm, Ne.symm hk]
      · simp [ih, hm, Ne.symm hk]

/-- The bumped word is a key after the bump. -/
theorem bumpWord_self_mem (acc : List (String × Nat)) (w : String) :
    w ∈ (bumpWord acc w).map Prod.fst := by
  rw [bumpWord_keys]
  by_cases hm : w ∈ acc.map Prod.fst
  · rw [if_pos hm]; exact hm
  · rw [if_neg hm]; simp

/-- Old keys remain keys after a bump. -/
theorem bumpWord_keys_mono {acc : List (String × Nat)} {w k : String}
    (h : k ∈ acc.map Prod.fst) : k ∈ (bumpWord acc w).map Prod.fst := by
  rw [bumpWord_keys]
  by_cases hm : w ∈ acc.map Prod.fst
  · rw [if_pos hm]; exact h
  · rw [if_neg hm]; exact List.mem_append_left _ h

/-- An entry after a bump is the bumped key or an old entry. -/
theorem mem_bumpWord {p : String × Nat} {w : String} :
    ∀ {acc : List (String × Nat)}, p ∈ bumpWord acc w → p.1 = w ∨ p ∈ acc := by
  intro acc
  induction acc with
  | nil =>
    intro h
    rw [show bumpWord [] w = [(w, 1)] from rfl] at h
    simp at h
    rw [h]
    exact Or.inl rfl
  | cons q rest ih =>
    obtain ⟨k, c⟩ := q
    intro h
    by_cases hk : k = w
    · rw [show bumpWord ((k, c) :: rest) w = (k, c + 1) :: rest by
        simp [bumpWord, hk]] at h
      rcases List.mem_cons.mp h with h1 | h1
      · rw [h1]; exact Or.inl hk
      · exact Or.inr (List.mem_cons_of_mem _ h1)
    · rw [show bumpWord ((k, c) :: rest) w = (k, c) :: bumpWord rest w by
        simp [bumpWord, hk]] at h
      rcases List.mem_cons.mp h with h1 | h1
      · exact Or.inr (h1 ▸ List.mem_cons_self _ _)
      · rcases ih h1 with h2 | h2
        · exact Or.inl h2
        · exact Or.inr (List.mem_cons_of_mem _ h2)

/-- Unfolding the counting loop by one token. -/
theorem buildFreq_cons (m : Nat) (w : String) (ws : List String)
    (acc : List (String × Nat)) :
    buildFreq m (w :: ws) acc =
      buildFreq m ws (if m < w.length then bumpWord acc w else acc) := rfl

/-- Every entry of the frequency table is an old entry or counts a
token longer than the threshold. -/
theorem buildFreq_mem {m : Nat} : ∀ (toks : List String)
    (acc : List (String × Nat)) (p : String × Nat),
    p ∈ buildFreq m toks acc → p ∈ acc ∨ (m < p.1.length ∧ p.1 ∈ toks) := by
  intro toks
  induction toks with
  | nil => exact fun acc p h => Or.inl h
  | cons w ws ih =>
    intro acc p h
    rw [buildFreq_cons] at h
    rcases ih _ p h with h1 | ⟨h1, h2⟩
    · by_cases hl : m < w.length
      · rw [if_pos hl] at h1
        rcases mem_bumpWord h1 with h2 | h2
        · refine Or.inr ⟨?_, ?_⟩ <;> rw [h2]
          · exact hl
          · exact List.mem_cons_self _ _
        · exact Or.inl h2
      · rw [if_neg hl] at h1
        exact Or.inl h1
    · exact Or.inr ⟨h1, List.mem_cons_of_mem _ h2⟩

/-- Key-level version of the entry fact. -/
theorem buildFreq_keys_mem {m : Nat} {toks : List String}
    {acc : List (String × Nat)} {k : String}
    (h : k ∈ (buildFreq m toks acc).map Prod.fst) :
    k ∈ acc.map Prod.fst ∨ (m < k.length ∧ k ∈ toks) := by
  obtain ⟨p, hp, rfl⟩ := List.mem_map.mp h
  rcases buildFreq_mem _ _ p hp with h1 | h1
  · exact Or.inl (List.mem_map_of_mem _ h1)
  · exact Or.inr h1

/-- The frequency table never has two entries with the same key. -/
theorem nodup_keys_buildFreq {m : Nat} : ∀ (toks : List String)
    (acc : List (String × Nat)), (acc.map Prod.fst).Nodup →
    ((buildFreq m toks acc).map Prod.fst).Nodup := by
  intro toks
  induction toks with
  | nil => exact fun acc h => h
  | cons w ws ih =>
    intro acc h
    rw [buildFreq_cons]
    apply ih
    by_cases hl : m < w.length
    · rw [if_pos hl, bumpWord_keys]
      by_cases hm : w ∈ acc.map Prod.fst
      · rw [if_pos hm]; exact h
      · rw [if_neg hm]
        rw [List.nodup_append]
        exact ⟨h, List.nodup_singleton w,
          fun x hx hx2 => hm ((List.mem_singleton.mp hx2) ▸ hx)⟩
    · rw [if_neg hl]; exact h

/-- The relative order of two distinct keys of the frequency table: both
already in the accumulator in that order, or the first in the
accumulator and the second new, or both new and the first encountered
earlier in the token stream. -/
theorem buildFreq_keyOrder {m : Nat} : ∀ (toks : List String)
    (acc : List (String × Nat)) (a b : String),
    [a, b] <+ (buildFreq m toks acc).map Prod.fst → a ≠ b →
    [a, b] <+ acc.map Prod.fst ∨
    (a ∈ acc.map Prod.fst ∧ b ∉ acc.map Prod.fst) ∨
    (a ∉ acc.map Prod.fst ∧ b ∉ acc.map Prod.fst ∧
      toks.findIdx (· = a) < toks.findIdx (· = b)) := by
  intro toks
  induction toks with
  | nil => exact fun acc a b h _ => Or.inl h
  | cons w ws ih =>
    intro acc a b h hab
    have hmemab : a ∈ (buildFreq m (w :: ws) acc).map Prod.fst ∧
        b ∈ (buildFreq m (w :: ws) acc).map Prod.fst :=
      ⟨h.subset (List.mem_cons_self _ _),
       h.subset (List.mem_cons_of_mem _ (List.mem_cons_self _ _))⟩
    rw [buildFreq_cons] at h
    by_cases hl : m < w.length
    · rw [if_pos hl] at h
      have hw_in : w ∈ (bumpWord acc w).map Prod.fst := bumpWord_self_mem acc w
      rcases ih _ a b h hab with h1 | ⟨h1, h2⟩ | ⟨h1, h2, h3⟩
      · rw [bumpWord_keys] at h1
        by_cases hm : w ∈ acc.map Prod.fst
        · rw [if_pos hm] at h1
          exact Or.inl h1
        · rw [if_neg hm] at h1
          rcases pair_sublist_concat h1 with h2 | ⟨h2, h3⟩
          · exact Or.inl h2
          · exact Or.inr (Or.inl ⟨h2, h3 ▸ hm⟩)
      · have hbn : b ∉ acc.map Prod.fst := fun hb => h2 (bumpWord_keys_mono hb)
        by_cases ha : a ∈ acc.map Prod.fst
        · exact Or.inr (Or.inl ⟨ha, hbn⟩)
        · have haw : a = w := by
            rw [bumpWord_keys] at h1
            by_cases hm : w ∈ acc.map Prod.fst
            · rw [if_pos hm] at h1
              exact absurd h1 ha
            · rw [if_neg hm] at h1
              rcases List.mem_append.mp h1 with h4 | h4
              · exact absurd h4 ha
              · simpa using h4
          refine Or.inr (Or.inr ⟨ha, hbn, ?_⟩)
          have hwb : ¬ (w = b) := fun h4 => hab (haw.trans h4)
          rw [List.findIdx_cons, List.findIdx_cons]
          simp [haw, hwb]
      · have han : a ∉ acc.map Prod.fst := fun h4 => h1 (bumpWord_keys_mono h4)
        have hbn : b ∉ acc.map Prod.fst := fun h4 => h2 (bumpWord_keys_mono h4)
        have haw : ¬ (w = a) := fun h4 => h1 (h4 ▸ hw_in)
        have hbw : ¬ (w = b) := fun h4 => h2 (h4 ▸ hw_in)
        refine Or.inr (Or.inr ⟨han, hbn, ?_⟩)
        rw [List.findIdx_cons, List.findIdx_cons]
        simp only [haw, hbw, decide_eq_true_eq, if_false, cond_false,
          decide_eq_false_iff_not]
        simp [haw, hbw]
        omega
    · rw [if_neg hl] at h
      rcases ih _ a b h hab with h1 | ⟨h1, h2⟩ | ⟨h1, h2, h3⟩
      · exact Or.inl h1
      · exact Or.inr (Or.inl ⟨h1, h2⟩)
      · refine Or.inr (Or.inr ⟨h1, h2, ?_⟩)
        have hla : m < a.length := by
          rcases buildFreq_keys_mem hmemab.1 with h4 | ⟨h4, _⟩
          · exact absurd h4 h1
          · exact h4
        have hlb : m < b.length := by
          rcases buildFreq_keys_mem hmemab.2 with h4 | ⟨h4, _⟩
          · exact absurd h4 h2
          · exact h4
        have haw : ¬ (w = a) := fun h4 => hl (h4 ▸ hla)
        have hbw : ¬ (w = b) := fun h4 => hl (h4 ▸ hlb)
        rw [List.findIdx_cons, List.findIdx_cons]
        simp [haw, hbw]
        omega

/-! ### Word frequency: token characters -/

/-- Every character of an extracted word run is a character of the
text. -/
theorem wordRuns_chars : ∀ (l : List Char) (tok : List Char),
    tok ∈ wordRuns l → ∀ c ∈ tok, c ∈ l := by
  intro l
  induction l with
  | nil => intro tok h; simp [wordRuns] at h
  | cons x rest ih =>
    intro tok h c hc
    by_cases hx : isWordChar x = true
    · by_cases hh : headIsWord rest = true
      · rw [show wordRuns (x :: rest) = consRun x (wordRuns rest) by
          simp [wordRuns, hx, hh]] at h
        cases hwr : wordRuns rest with
        | nil =>
          rw [hwr] at h
          rw [show consRun x [] = [[x]] from rfl] at h
          simp at h
          subst h
          simp at hc
          exact hc ▸ List.mem_cons_self _ _
        | cons r rs =>
          rw [hwr] at h
          rw [show consRun x (r :: rs) = (x :: r) :: rs from rfl] at h
          rcases List.mem_cons.mp h with h1 | h1
          · subst h1
            rcases List.mem_cons.mp hc with h2 | h2
            · exact h2 ▸ List.mem_cons_self _ _
            · exact List.mem_cons_of_mem _
                (ih r (hwr ▸ List.mem_cons_self _ _) c h2)
          · exact List.mem_cons_of_mem _
              (ih tok (hwr ▸ List.mem_cons_of_mem _ h1) c hc)
      · rw [show wordRuns (x :: rest) = [x] :: wordRuns rest by
          simp [wordRuns, hx, hh]] at h
        rcases List.mem_cons.mp h with h1 | h1
        · subst h1
          simp at hc
          exact hc ▸ List.mem_cons_self _ _
        · exact List.mem_cons_of_mem _ (ih tok h1 c hc)
    · rw [show wordRuns (x :: rest) = wordRuns rest by simp [wordRuns, hx]] at h
      exact List.mem_cons_of_mem _ (ih tok h c hc)
/-! ### Claims C8 and C5 -/

/-- Claim C8: for every text and every (minLength, maxWords), the
frequency list has at most maxWords entries, each returned word is
longer than minLength and contains no uppercase letter, and empty input
yields the empty list. -/
theorem c8_analyzeWordFrequency_bounds (t : String) (m k : Nat) :
    (analyzeWordFrequency t m k).length ≤ k ∧
    (∀ p ∈ analyzeWordFrequency t m k, m < p.1.length ∧
      ∀ c ∈ p.1.data, isUpperAlpha c = false) ∧
    analyzeWordFrequency "" m k = [] := by
  refine ⟨?_, ?_, ?_⟩
  · exact List.length_take_le _ _
  · intro p hp
    have h1 : p ∈ sortCountDesc (jsEntries (buildFreq m (freqTokens t) [])) :=
      (List.take_sublist _ _).subset hp
    have h2 : p ∈ jsEntries (buildFreq m (freqTokens t) []) :=
      ((sortCountDesc_perm _).mem_iff).mp h1
    have h3 : p ∈ buildFreq m (freqTokens t) [] :=
      ((jsEntries_perm _).mem_iff).mp h2
    rcases buildFreq_mem _ _ p h3 with h4 | ⟨h4, h5⟩
    · simp at h4
    · refine ⟨h4, ?_⟩
      intro c hc
      obtain ⟨tok, htok, hmk⟩ := List.mem_map.mp h5
      have hc2 : c ∈ tok := by rw [← hmk] at hc; exact hc
      have hc3 : c ∈ normalizeTextL t.data := wordRuns_chars _ tok htok c hc2
      exact (normalizeTextL_shape t.data).1 c hc3
  · show (sortCountDesc (jsEntries (buildFreq m (freqTokens "") []))).take k = []
    rw [show sortCountDesc (jsEntries (buildFreq m (freqTokens "") [])) = []
      from rfl]
    exact List.take_nil

/-- Witness for claim C8 at a concrete text: at most five entries, and
the entry for the token abc is longer than the default threshold. -/
theorem c8_witness :
    (analyzeWordFrequency "abc abc" 2 5).length ≤ 5 ∧
    2 < (("abc", 2) : String × Nat).1.length :=
  ⟨(c8_analyzeWordFrequency_bounds "abc abc" 2 5).1,
   ((c8_analyzeWordFrequency_bounds "abc abc" 2 5).2.1 ("abc", 2)
     (by decide)).1⟩

/-- Claim C5, counterexample: in the text "aaa bbb 111 aaa" the word bbb
is first encountered before 111 and both end with count 1, yet the
returned sequence lists 111 before bbb: Object.entries enumerates the
array-index key "111" first, so ties are not broken by encounter
order. -/
theorem c5_counterexample :
    analyzeWordFrequency "aaa bbb 111 aaa" 2 10 =
      [("aaa", 2), ("111", 1), ("bbb", 1)] ∧
    firstTokenIdx (freqTokens "aaa bbb 111 aaa") "bbb" <
      firstTokenIdx (freqTokens "aaa bbb 111 aaa") "111" := by
  decide

/-- Claim C5, amended: provided no extracted token is an array-index
string of digits, the frequency list is sorted by count descending and
entries with equal counts appear in the order in which their words were
first encountered in the token stream. -/
theorem c5_amended (t : String) (m k : Nat)
    (hnum : ∀ w ∈ freqTokens t, isArrayIndexStr w = false)
    (i j : Nat) (hij : i < j)
    (hj : j < (analyzeWordFrequency t m k).length) :
    ((analyzeWordFrequency t m k).getD j ("", 0)).2 ≤
      ((analyzeWordFrequency t m k).getD i ("", 0)).2 ∧
    (((analyzeWordFrequency t m k).getD i ("", 0)).2 =
        ((analyzeWordFrequency t m k).getD j ("", 0)).2 →
      firstTokenIdx (freqTokens t)
          ((analyzeWordFrequency t m k).getD i ("", 0)).1 <
        firstTokenIdx (freqTokens t)
          ((analyzeWordFrequency t m k).getD j ("", 0)).1) := by
  have hents : jsEntries (buildFreq m (freqTokens t) []) =
      buildFreq m (freqTokens t) [] := by
    apply jsEntries_id
    intro p hp
    rcases buildFreq_mem _ _ p hp with h | ⟨_, h2⟩
    · simp at h
    · exact hnum p.1 h2
  have hout : analyzeWordFrequency t m k =
      (sortCountDesc (buildFreq m (freqTokens t) [])).take k := by
    show (sortCountDesc (jsEntries (buildFreq m (freqTokens t) []))).take k = _
    rw [hents]
  have hsub : analyzeWordFrequency t m k <+
      sortCountDesc (buildFreq m (freqTokens t) []) := by
    rw [hout]
    exact List.take_sublist _ _
  have hi : i < (analyzeWordFrequency t m k).length := Nat.lt_trans hij hj
  have hchain : List.Chain' (fun a b : String × Nat => b.2 ≤ a.2)
      (analyzeWordFrequency t m k) := by
    rw [hout]
    have h1 := chain_sortCountDesc (buildFreq m (freqTokens t) [])
    rw [← List.take_append_drop k
      (sortCountDesc (buildFreq m (freqTokens t) []))] at h1
    exact (List.chain'_append.mp h1).1
  have hpairw : List.Pairwise (fun a b : String × Nat => b.2 ≤ a.2)
      (analyzeWordFrequency t m k) := by
    haveI : IsTrans (String × Nat) (fun a b : String × Nat => b.2 ≤ a.2) :=
      ⟨fun a b c h1 h2 => Nat.le_trans h2 h1⟩
    exact List.chain'_iff_pairwise.mp hchain
  constructor
  · have := List.pairwise_iff_getElem.mp hpairw i j hi hj hij
    rw [List.getD_eq_getElem (analyzeWordFrequency t m k) ("", 0) hi,
      List.getD_eq_getElem (analyzeWordFrequency t m k) ("", 0) hj]
    exact this
  · intro heq
    have hps : [(analyzeWordFrequency t m k).getD i ("", 0),
        (analyzeWordFrequency t m k).getD j ("", 0)] <+
        analyzeWordFrequency t m k :=
      pair_sublist_getD (analyzeWordFrequency t m k) i j hij hj
    have huv : [(analyzeWordFrequency t m k).getD i ("", 0),
        (analyzeWordFrequency t m k).getD j ("", 0)] <+
        buildFreq m (freqTokens t) [] :=
      stable_pairs (hps.trans hsub) heq
    have hkeys : [((analyzeWordFrequency t m k).getD i ("", 0)).1,
        ((analyzeWordFrequency t m k).getD j ("", 0)).1] <+
        (buildFreq m (freqTokens t) []).map Prod.fst := huv.map Prod.fst
    have hnodup : ((buildFreq m (freqTokens t) []).map Prod.fst).Nodup :=
      nodup_keys_buildFreq _ [] (by simp)
    have hne : ((analyzeWordFrequency t m k).getD i ("", 0)).1 ≠
        ((analyzeWordFrequency t m k).getD j ("", 0)).1 := by
      have h2 := hkeys.nodup hnodup
      simp only [List.nodup_cons, List.mem_singleton, List.nodup_nil] at h2
      exact h2.1
    rcases buildFreq_keyOrder (freqTokens t) []
        ((analyzeWordFrequency t m k).getD i ("", 0)).1
        ((analyzeWordFrequency t m k).getD j ("", 0)).1 hkeys hne with
      h1 | ⟨h1, _⟩ | ⟨_, _, h3⟩
    · have := h1.length_le
      simp at this
    · simp at h1
    · exact h3

/-- Witness for the amended claim C5 at a concrete text with no numeric
tokens: among the count-1 entries, bbb (encountered first) precedes
ccc. -/
theorem c5_witness :
    ((analyzeWordFrequency "aaa bbb aaa ccc" 2 10).getD 2 ("", 0)).2 ≤
      ((analyzeWordFrequency "aaa bbb aaa ccc" 2 10).getD 1 ("", 0)).2 ∧
    (((analyzeWordFrequency "aaa bbb aaa ccc" 2 10).getD 1 ("", 0)).2 =
        ((analyzeWordFrequency "aaa bbb aaa ccc" 2 10).getD 2 ("", 0)).2 →
      firstTokenIdx (freqTokens "aaa bbb aaa ccc")
          ((analyzeWordFrequency "aaa bbb aaa ccc" 2 10).getD 1 ("", 0)).1 <
        firstTokenIdx (freqTokens "aaa bbb aaa ccc")
          ((analyzeWordFrequency "aaa bbb aaa ccc" 2 10).getD 2 ("", 0)).1) :=
  c5_amended "aaa bbb aaa ccc" 2 10 (by decide) 1 2 (by decide) (by decide)

end TextAnalyzer
